import Mathlib

/-!
# Verification of the columnar segment write path

A shallow embedding of the segment write path of the `columnar` repository:
typed column writers (int64, float64, bool, string, timestamp) with
bit-packed null bitmaps, the segment writer (record writing, commit,
metadata emission) and the manifest. File I/O is modelled as pure state:
each writer's output files are byte/value lists carried in its state, and
filesystem operations that the claims do not exercise are taken to succeed.
-/

/-- Go `float64` values, abstracting the IEEE-754 payload: a finite value
(represented exactly as a rational), the two infinities, or NaN. -/
inductive GoFloat where
  | finite (q : ℚ)
  | posInf
  | negInf
  | nan
deriving DecidableEq, Repr

/-- Models `math.IsNaN`. -/
def GoFloat.isNaN : GoFloat → Bool
  | .nan => true
  | _ => false

/-- IEEE-754 `<` on float64: comparisons with NaN are always false. -/
def GoFloat.flt : GoFloat → GoFloat → Bool
  | .finite a, .finite b => a < b
  | .finite _, .posInf => true
  | .negInf, .finite _ => true
  | .negInf, .posInf => true
  | _, _ => false

/-- A Go `time.Time` wall-clock instant: seconds since the Unix epoch plus
a nanosecond offset within the second (as `time.Time` stores it). -/
structure Instant where
  sec : Int
  nsec : Nat
deriving DecidableEq, Repr

/-- Models `time.Time.UnixNano()`: nanoseconds since the Unix epoch. -/
def Instant.unixNano (t : Instant) : Int :=
  t.sec * 1000000000 + t.nsec

/-- The dynamic values handed to `ColumnWriter.Write(value any)`:
null, int64, float64, bool, string, or a `time.Time` instant. -/
inductive GoValue where
  | null
  | int (v : Int)
  | float (v : GoFloat)
  | boolean (v : Bool)
  | str (v : String)
  | time (t : Instant)
deriving DecidableEq, Repr

/-- Error kinds returned by column writers. -/
inductive ColErr where
  | closedWriter
  | typeMismatch
  | disallowedValue
  | alreadyClosed
deriving DecidableEq, Repr

/-- Little-endian two's-complement encoding of an int64 into 8 bytes,
as `binary.Write(w, binary.LittleEndian, v)` produces. -/
def leBytes64 (v : Int) : List Nat :=
  (List.range 8).map fun j => ((v % (2 ^ 64 : Int)).toNat >>> (8 * j)) % 256

/-- One `|=` step of `writeNullBit`: set bit `7 - bit` of `byte` if `b`. -/
def setBit8 (byte bit : Nat) (b : Bool) : Nat :=
  if b then byte ||| (1 <<< (7 - bit)) else byte

/-- The body of `writeNullBit`, shared verbatim by every column writer:
OR the bit into the current byte MSB-first, and flush the byte to the
file once 8 bits have accumulated.  Returns (file bytes, byte, bit). -/
def nullAppend (bytes : List Nat) (byte bit : Nat) (b : Bool) :
    List Nat × Nat × Nat :=
  let byte2 := setBit8 byte bit b
  if bit + 1 == 8 then (bytes ++ [byte2], 0, 0) else (bytes, byte2, bit + 1)

/-- State of `int64col.Writer`: the bytes written to `<name>.bin`
(`values`), the flushed bytes of `<name>.nulls.bin` (`nulls`), the
in-progress bitmap byte and bit cursor, counts, running statistics and
the closed flag. -/
structure Int64State where
  values : List Nat
  nulls : List Nat
  nullByte : Nat
  nullBit : Nat
  count : Nat
  nullCount : Nat
  min : Int
  max : Int
  hasValue : Bool
  closed : Bool
deriving DecidableEq, Repr

/-- Models `int64col.NewWriter`: fresh files, zeroed state. -/
def int64Init : Int64State :=
  ⟨[], [], 0, 0, 0, 0, 0, 0, false, false⟩

/-- Models `int64col.Writer.Write`: accepts int64 or nil; null writes a 0-bit to
the bitmap and an 8-byte zero placeholder; a value writes a 1-bit, the
little-endian value, and updates min/max. -/
def int64Write (w : Int64State) (value : GoValue) : Option ColErr × Int64State :=
  if w.closed then (some .closedWriter, w) else
  match value with
  | .null =>
      let r := nullAppend w.nulls w.nullByte w.nullBit false
      (none, { w with
        nullCount := w.nullCount + 1,
        nulls := r.1, nullByte := r.2.1, nullBit := r.2.2,
        values := w.values ++ leBytes64 0,
        count := w.count + 1 })
  | .int v =>
      let r := nullAppend w.nulls w.nullByte w.nullBit true
      let w2 := { w with
        nulls := r.1, nullByte := r.2.1, nullBit := r.2.2,
        values := w.values ++ leBytes64 v }
      let w3 :=
        if !w2.hasValue then { w2 with min := v, max := v, hasValue := true }
        else { w2 with
          max := if w2.max < v then v else w2.max,
          min := if v < w2.min then v else w2.min }
      (none, { w3 with count := w3.count + 1 })
  | _ => (some .typeMismatch, w)

/-- Models `int64col.Writer.Close`: flush the partial bitmap byte (if the bit
cursor is nonzero) and mark the writer closed. -/
def int64Close (w : Int64State) : Option ColErr × Int64State :=
  if w.closed then (some .alreadyClosed, w) else
  let w2 := { w with closed := true }
  let w3 := if w2.nullBit > 0 then { w2 with nulls := w2.nulls ++ [w2.nullByte] } else w2
  (none, w3)

/-- Models `RecordCount()`. -/
def int64RecordCount (w : Int64State) : Nat := w.count

/-- Models `NullCount()`. -/
def int64NullCount (w : Int64State) : Nat := w.nullCount

/-- Models `Min()`: the running minimum field (zero value if nothing was seen). -/
def int64Min (w : Int64State) : Int := w.min

/-- Models `Max()`: the running maximum field (zero value if nothing was seen). -/
def int64Max (w : Int64State) : Int := w.max

/-- Feed a list of values through `Write`, keeping whatever state results. -/
def int64WriteList (w : Int64State) (vs : List GoValue) : Int64State :=
  vs.foldl (fun s v => (int64Write s v).2) w

/-- Inputs of a sequence of successful int64 writes: null or an int64. -/
def ovToVal : Option Int → GoValue
  | none => .null
  | some n => .int n

/-! ## Reference packing of MSB-first bitmaps -/

/-- Pack a list of at most `8 - bit` bits into `byte`, starting at bit
cursor `bit`, exactly as repeated `setBit8` steps do. -/
def packByte (byte bit : Nat) : List Bool → Nat
  | [] => byte
  | b :: rest => packByte (setBit8 byte bit b) (bit + 1) rest

/-- Pack a whole bit list into MSB-first bytes, the final byte
low-order-padded with zeros. -/
def packBytes (bs : List Bool) : List Nat :=
  if h : bs = [] then []
  else packByte 0 0 (bs.take 8) :: packBytes (bs.drop 8)
termination_by bs.length
decreasing_by
  simp only [List.length_drop]
  have : 0 < bs.length := List.length_pos.mpr h
  omega

/-- Relation between a writer's bitmap state (flushed bytes, current byte,
bit cursor) and the abstract list of bits fed to `writeNullBit` so far. -/
def bitmapRel (bytes : List Nat) (byte bit : Nat) (flags : List Bool) : Prop :=
  ∃ full rem : List Bool,
    flags = full ++ rem ∧ rem.length < 8 ∧ 8 ∣ full.length ∧
    bytes = packBytes full ∧ byte = packByte 0 0 rem ∧ bit = rem.length

/-! ## Float64 writer (`float64col`) -/

/-- State of `float64col.Writer`: values file as the list of appended
float64 values, plus the null bitmap state, counts and statistics. -/
structure Float64State where
  values : List GoFloat
  nulls : List Nat
  nullByte : Nat
  nullBit : Nat
  count : Nat
  nullCount : Nat
  min : GoFloat
  max : GoFloat
  hasValue : Bool
  closed : Bool
deriving DecidableEq, Repr

/-- Models `float64col.NewWriter`. -/
def float64Init : Float64State :=
  ⟨[], [], 0, 0, 0, 0, .finite 0, .finite 0, false, false⟩

/-- Models `float64col.Writer.Write`: accepts float64 or nil; rejects NaN with a
disallowed-value error before touching the bitmap or the value file. -/
def float64Write (w : Float64State) (value : GoValue) : Option ColErr × Float64State :=
  if w.closed then (some .closedWriter, w) else
  match value with
  | .null =>
      let r := nullAppend w.nulls w.nullByte w.nullBit false
      (none, { w with
        nullCount := w.nullCount + 1,
        nulls := r.1, nullByte := r.2.1, nullBit := r.2.2,
        values := w.values ++ [.finite 0],
        count := w.count + 1 })
  | .float v =>
      if v.isNaN then (some .disallowedValue, w) else
      let r := nullAppend w.nulls w.nullByte w.nullBit true
      let w2 := { w with
        nulls := r.1, nullByte := r.2.1, nullBit := r.2.2,
        values := w.values ++ [v] }
      let w3 :=
        if !w2.hasValue then { w2 with min := v, max := v, hasValue := true }
        else { w2 with
          max := if w2.max.flt v then v else w2.max,
          min := if v.flt w2.min then v else w2.min }
      (none, { w3 with count := w3.count + 1 })
  | _ => (some .typeMismatch, w)

/-- Models `float64col.Writer.Close`. -/
def float64Close (w : Float64State) : Option ColErr × Float64State :=
  if w.closed then (some .alreadyClosed, w) else
  let w2 := { w with closed := true }
  let w3 := if w2.nullBit > 0 then { w2 with nulls := w2.nulls ++ [w2.nullByte] } else w2
  (none, w3)

/-- Models `RecordCount()` of the float64 writer. -/
def float64RecordCount (w : Float64State) : Nat := w.count

/-- Models `NullCount()` of the float64 writer. -/
def float64NullCount (w : Float64State) : Nat := w.nullCount

/-- Models `Min()` of the float64 writer. -/
def float64Min (w : Float64State) : GoFloat := w.min

/-- Models `Max()` of the float64 writer. -/
def float64Max (w : Float64State) : GoFloat := w.max

/-- Feed a list of values through the float64 writer. -/
def float64WriteList (w : Float64State) (vs : List GoValue) : Float64State :=
  vs.foldl (fun s v => (float64Write s v).2) w

/-! ## Timestamp writer (`timestampcol`), adapting the int64 writer -/

/-- State of `timestampcol.Writer`: a wrapped int64 writer. -/
structure TimestampState where
  inner : Int64State
deriving DecidableEq, Repr

/-- Models `timestampcol.NewWriter`. -/
def tsInit : TimestampState := ⟨int64Init⟩

/-- Models `timestampcol.Writer.Write`: nil is forwarded; a `time.Time` instant
is converted with `UnixNano()`; an int64 is stored unchanged; anything
else is a type mismatch. -/
def tsWrite (w : TimestampState) (value : GoValue) : Option ColErr × TimestampState :=
  match value with
  | .null =>
      let r := int64Write w.inner .null
      (r.1, ⟨r.2⟩)
  | .time t =>
      let r := int64Write w.inner (.int t.unixNano)
      (r.1, ⟨r.2⟩)
  | .int v =>
      let r := int64Write w.inner (.int v)
      (r.1, ⟨r.2⟩)
  | _ => (some .typeMismatch, w)

/-- Models `timestampcol.Writer.Close`. -/
def tsClose (w : TimestampState) : Option ColErr × TimestampState :=
  let r := int64Close w.inner
  (r.1, ⟨r.2⟩)

/-- Models `RecordCount()` of the timestamp writer. -/
def tsRecordCount (w : TimestampState) : Nat := int64RecordCount w.inner

/-- Models `NullCount()` of the timestamp writer. -/
def tsNullCount (w : TimestampState) : Nat := int64NullCount w.inner

/-- Models `Min()` of the timestamp writer: the underlying int64 extent. -/
def tsMin (w : TimestampState) : Int := int64Min w.inner

/-- Models `Max()` of the timestamp writer: the underlying int64 extent. -/
def tsMax (w : TimestampState) : Int := int64Max w.inner

/-- Feed a list of values through the timestamp writer. -/
def tsWriteList (w : TimestampState) (vs : List GoValue) : TimestampState :=
  vs.foldl (fun s v => (tsWrite s v).2) w

/-! ## String writer (`stringcol`), dictionary-encoded -/

/-- State of `stringcol.Writer`: ids file (as the sequence of uint32 ids
written), dictionary files, the in-memory dictionary (`strToID` map as an
association list, `idToStr` in id order), null bitmap state and counts.
`dict` holds the `[u32 length][UTF-8 bytes]` entries written at close,
each as (byte length, string). -/
structure StringState where
  ids : List Nat
  dict : List (Nat × String)
  strToID : List (String × Nat)
  idToStr : List String
  nulls : List Nat
  nullByte : Nat
  nullBit : Nat
  recordCount : Nat
  nullCount : Nat
  closed : Bool
deriving DecidableEq, Repr

/-- Models `stringcol.NewWriter`. -/
def stringInit : StringState :=
  ⟨[], [], [], [], [], 0, 0, 0, 0, false⟩

/-- Go `uint32(n)`. -/
def u32 (n : Nat) : Nat := n % 4294967296

/-- Models `stringcol.Writer.Write`: null writes a 0-bit and id 0; a string
writes a 1-bit and its dictionary id, allocating the next id
(`len(idToStr) + 1`, reserving 0 for NULL) on first occurrence. -/
def stringWrite (w : StringState) (value : GoValue) : Option ColErr × StringState :=
  if w.closed then (some .closedWriter, w) else
  match value with
  | .null =>
      let r := nullAppend w.nulls w.nullByte w.nullBit false
      (none, { w with
        nullCount := w.nullCount + 1,
        nulls := r.1, nullByte := r.2.1, nullBit := r.2.2,
        ids := w.ids ++ [0],
        recordCount := w.recordCount + 1 })
  | .str s =>
      let r := nullAppend w.nulls w.nullByte w.nullBit true
      let w2 := { w with nulls := r.1, nullByte := r.2.1, nullBit := r.2.2 }
      match List.lookup s w2.strToID with
      | some id =>
          (none, { w2 with ids := w2.ids ++ [id], recordCount := w2.recordCount + 1 })
      | none =>
          let id := u32 (w2.idToStr.length + 1)
          (none, { w2 with
            strToID := (s, id) :: w2.strToID,
            idToStr := w2.idToStr ++ [s],
            ids := w2.ids ++ [id],
            recordCount := w2.recordCount + 1 })
  | _ => (some .typeMismatch, w)

/-- Models `stringcol.Writer.Close`: flush the partial bitmap byte, then write
the dictionary entries in id order as `[u32 length][bytes]`. -/
def stringClose (w : StringState) : Option ColErr × StringState :=
  if w.closed then (some .alreadyClosed, w) else
  let w2 := { w with closed := true }
  let w3 := if w2.nullBit > 0 then { w2 with nulls := w2.nulls ++ [w2.nullByte] } else w2
  (none, { w3 with dict := w3.idToStr.map (fun s => (s.utf8ByteSize, s)) })

/-- Models `RecordCount()` of the string writer. -/
def stringRecordCount (w : StringState) : Nat := w.recordCount

/-- Models `NullCount()` of the string writer. -/
def stringNullCount (w : StringState) : Nat := w.nullCount

/-- Models `DictionarySize()`: number of distinct strings seen. -/
def stringDictionarySize (w : StringState) : Nat := w.idToStr.length

/-- Feed a list of values through the string writer. -/
def stringWriteList (w : StringState) (vs : List GoValue) : StringState :=
  vs.foldl (fun s v => (stringWrite s v).2) w

/-- Null-or-string inputs of a sequence of successful string writes. -/
def osToVal : Option String → GoValue
  | none => .null
  | some s => .str s

/-- Null-or-float64 inputs of a sequence of float64 writes. -/
def ofToVal : Option GoFloat → GoValue
  | none => .null
  | some g => .float g

/-- Null-or-bool inputs of a sequence of bool writes. -/
def obToVal : Option Bool → GoValue
  | none => .null
  | some b => .boolean b

/-- The distinct strings of a list in first-seen order. -/
def firstSeen (xs : List String) : List String :=
  xs.foldl (fun acc s => if s ∈ acc then acc else acc ++ [s]) []

/-- The dictionary invariant tying a string-writer state to the sequence
of (successful) writes performed so far. -/
def dictInv (w : StringState) (ws : List (Option String)) : Prop :=
  w.closed = false ∧
  w.recordCount = ws.length ∧
  w.idToStr = firstSeen (ws.filterMap id) ∧
  (∀ t : String, List.lookup t w.strToID
      = (w.idToStr.findIdx? (fun u => u == t)).map (fun k => u32 (k + 1))) ∧
  w.ids.length = ws.length ∧
  (∀ i, i < ws.length →
    w.ids.getD i 0 = (match ws.getD i none with
      | none => 0
      | some t => u32 (w.idToStr.findIdx (fun u => u == t) + 1)))

/-! ## Bool writer (`boolcol`) -/

/-- State of `boolcol.Writer`: bit-packed values file plus null bitmap. -/
structure BoolState where
  values : List Nat
  valueBuf : Nat
  valueBitPos : Nat
  nulls : List Nat
  nullByte : Nat
  nullBit : Nat
  count : Nat
  nullCount : Nat
  closed : Bool
deriving DecidableEq, Repr

/-- Models `boolcol.NewWriter`. -/
def boolInit : BoolState := ⟨[], 0, 0, [], 0, 0, 0, 0, false⟩

/-- Models `boolcol.Writer.Write`: null contributes a 0 bit to both streams;
a bool packs its bit MSB-first into the values file. -/
def boolWrite (w : BoolState) (value : GoValue) : Option ColErr × BoolState :=
  if w.closed then (some .closedWriter, w) else
  match value with
  | .null =>
      let r := nullAppend w.nulls w.nullByte w.nullBit false
      let v := nullAppend w.values w.valueBuf w.valueBitPos false
      (none, { w with
        nullCount := w.nullCount + 1,
        nulls := r.1, nullByte := r.2.1, nullBit := r.2.2,
        values := v.1, valueBuf := v.2.1, valueBitPos := v.2.2,
        count := w.count + 1 })
  | .boolean b =>
      let r := nullAppend w.nulls w.nullByte w.nullBit true
      let v := nullAppend w.values w.valueBuf w.valueBitPos b
      (none, { w with
        nulls := r.1, nullByte := r.2.1, nullBit := r.2.2,
        values := v.1, valueBuf := v.2.1, valueBitPos := v.2.2,
        count := w.count + 1 })
  | _ => (some .typeMismatch, w)

/-- Models `boolcol.Writer.Close`: flush value bits, then null bits. -/
def boolClose (w : BoolState) : Option ColErr × BoolState :=
  if w.closed then (some .alreadyClosed, w) else
  let w2 := { w with closed := true }
  let w3 := if w2.valueBitPos > 0 then { w2 with values := w2.values ++ [w2.valueBuf] } else w2
  let w4 := if w3.nullBit > 0 then { w3 with nulls := w3.nulls ++ [w3.nullByte] } else w3
  (none, w4)

/-- Models `RecordCount()` of the bool writer. -/
def boolRecordCount (w : BoolState) : Nat := w.count

/-- Models `NullCount()` of the bool writer. -/
def boolNullCount (w : BoolState) : Nat := w.nullCount

/-- Feed a list of values through the bool writer. -/
def boolWriteList (w : BoolState) (vs : List GoValue) : BoolState :=
  vs.foldl (fun s v => (boolWrite s v).2) w

/-! ## Schema types and the column writer interface -/

/-- The supported column types. -/
inductive ColumnType where
  | int64
  | float64
  | boolean
  | string
  | timestamp
deriving DecidableEq, Repr

/-- The Go string constant behind each `schema.ColumnType`. -/
def ColumnType.goName : ColumnType → String
  | .int64 => "int64"
  | .float64 => "float64"
  | .boolean => "bool"
  | .string => "string"
  | .timestamp => "timestamp"

/-- Models `schema.Column`: name, type, nullability and position index. -/
structure Column where
  name : String
  type : ColumnType
  nullable : Bool
  index : Int
deriving DecidableEq, Repr

instance : Inhabited Column := ⟨⟨"", .int64, false, 0⟩⟩

/-- The concrete column writers the factory can produce, one per type. -/
inductive ColWriter where
  | i64 (s : Int64State)
  | f64 (s : Float64State)
  | bl (s : BoolState)
  | str (s : StringState)
  | ts (s : TimestampState)
deriving DecidableEq, Repr

instance : Inhabited ColWriter := ⟨.i64 int64Init⟩

/-- The `ColumnWriter` interface together with the optional statistics
capabilities that `writeMetadata` probes with Go interface assertions:
a query returns `none` exactly when the assertion fails. -/
structure WriterOps (W : Type) where
  write : W → GoValue → Option ColErr × W
  close : W → Option ColErr × W
  recordCount : W → Nat
  nullCountQ : W → Option Nat
  minMaxIntQ : W → Option (Int × Int)
  minMaxFloatQ : W → Option (GoFloat × GoFloat)
  dictSizeQ : W → Option Nat

/-- Models `ColWriter.Write` dispatch. -/
def colWrite : ColWriter → GoValue → Option ColErr × ColWriter
  | .i64 s, v => let r := int64Write s v; (r.1, .i64 r.2)
  | .f64 s, v => let r := float64Write s v; (r.1, .f64 r.2)
  | .bl s, v => let r := boolWrite s v; (r.1, .bl r.2)
  | .str s, v => let r := stringWrite s v; (r.1, .str r.2)
  | .ts s, v => let r := tsWrite s v; (r.1, .ts r.2)

/-- Models `ColWriter.Close` dispatch. -/
def colClose : ColWriter → Option ColErr × ColWriter
  | .i64 s => let r := int64Close s; (r.1, .i64 r.2)
  | .f64 s => let r := float64Close s; (r.1, .f64 r.2)
  | .bl s => let r := boolClose s; (r.1, .bl r.2)
  | .str s => let r := stringClose s; (r.1, .str r.2)
  | .ts s => let r := tsClose s; (r.1, .ts r.2)

/-- Models `ColWriter.RecordCount` dispatch. -/
def colRecordCount : ColWriter → Nat
  | .i64 s => int64RecordCount s
  | .f64 s => float64RecordCount s
  | .bl s => boolRecordCount s
  | .str s => stringRecordCount s
  | .ts s => tsRecordCount s

/-- The concrete interface of the repository's writers: every writer has
`NullCount`; int64 and timestamp have int64 `Min`/`Max`; float64 has
float64 `Min`/`Max`; only the string writer has `DictionarySize`. -/
def colWriterOps : WriterOps ColWriter where
  write := colWrite
  close := colClose
  recordCount := colRecordCount
  nullCountQ w := match w with
    | .i64 s => some (int64NullCount s)
    | .f64 s => some (float64NullCount s)
    | .bl s => some (boolNullCount s)
    | .str s => some (stringNullCount s)
    | .ts s => some (tsNullCount s)
  minMaxIntQ w := match w with
    | .i64 s => some (int64Min s, int64Max s)
    | .ts s => some (tsMin s, tsMax s)
    | _ => none
  minMaxFloatQ w := match w with
    | .f64 s => some (float64Min s, float64Max s)
    | _ => none
  dictSizeQ w := match w with
    | .str s => some (stringDictionarySize s)
    | _ => none

/-- Models `createColumnWriter`: factory dispatch on the column type. -/
def createColumnWriter (col : Column) : ColWriter :=
  match col.type with
  | .int64 => .i64 int64Init
  | .float64 => .f64 float64Init
  | .boolean => .bl boolInit
  | .string => .str stringInit
  | .timestamp => .ts tsInit

/-! ## Manifest -/

/-- Models `segment.ManifestItem`. -/
structure ManifestItem where
  id : Int
  path : String
  recordCount : Nat
deriving DecidableEq, Repr

/-- Models `segment.Manifest`. -/
structure Manifest where
  version : Int
  segments : List ManifestItem
deriving DecidableEq, Repr

/-- An absent manifest file loads as `{version: 1, segments: []}`. -/
def emptyManifest : Manifest := ⟨1, []⟩

/-- Manifest error kinds. -/
inductive ManErr where
  | dupId (id : Int)
  | dupPath (p : String)
deriving DecidableEq, Repr

/-- The duplicate scan of `appendManifestItem`: per existing entry, the
id is compared first, then the path. -/
def manifestDupCheck : List ManifestItem → ManifestItem → Option ManErr
  | [], _ => none
  | x :: rest, item =>
      if x.id == item.id then some (.dupId item.id)
      else if x.path == item.path then some (.dupPath item.path)
      else manifestDupCheck rest item

/-- Models `appendManifestItem` on the loaded manifest: reject a duplicate id or
path, otherwise append and rewrite. -/
def appendManifestItem (m : Manifest) (item : ManifestItem) : Except ManErr Manifest :=
  match manifestDupCheck m.segments item with
  | some e => .error e
  | none => .ok { m with segments := m.segments ++ [item] }

/-- No two manifest entries share an id, and no two share a path. -/
def manifestNoDup (m : Manifest) : Prop :=
  m.segments.Pairwise (fun a b => a.id ≠ b.id ∧ a.path ≠ b.path)

/-! ## Segment metadata -/

/-- A statistics value stored in `min_value`/`max_value` (`any` in Go). -/
inductive MetaValue where
  | intVal (v : Int)
  | floatVal (v : GoFloat)
deriving DecidableEq, Repr

/-- Models `metadata.ColumnMetadata`: optional fields are `Option`/zero-valued
exactly as the Go struct leaves them when not set. -/
structure ColumnMetadata where
  name : String
  typeName : String
  recordCount : Nat
  minValue : Option MetaValue
  maxValue : Option MetaValue
  dictionarySize : Nat
  nullCount : Nat
deriving DecidableEq, Repr

instance : Inhabited ColumnMetadata := ⟨⟨"", "", 0, none, none, 0, 0⟩⟩

/-- Models `metadata.SegmentMetadata`. -/
structure SegmentMetadata where
  segmentId : Nat
  recordCount : Nat
  columns : List ColumnMetadata
deriving DecidableEq, Repr

instance : Inhabited SegmentMetadata := ⟨⟨0, 0, []⟩⟩

/-- The JSON keys `encoding/json` emits for one `ColumnMetadata`, in
struct-field order: `min_value`, `max_value` carry `omitempty` on an
interface (absent iff unset), and `dictionary_size`, `null_count` carry
`omitempty` on an int (absent iff zero). -/
def columnMetadataJsonKeys (c : ColumnMetadata) : List String :=
  ["name", "type", "record_count"]
    ++ (if c.minValue.isSome then ["min_value"] else [])
    ++ (if c.maxValue.isSome then ["max_value"] else [])
    ++ (if c.dictionarySize ≠ 0 then ["dictionary_size"] else [])
    ++ (if c.nullCount ≠ 0 then ["null_count"] else [])

/-- The per-column body of `writeMetadata`: query `RecordCount` and (via
interface assertion) `NullCount`; then, switching on the column type,
set min/max only when the assertion succeeds and
`NullCount < RecordCount`, and `DictionarySize` for strings. -/
def columnMeta {W : Type} (ops : WriterOps W) (col : Column) (w : W) : ColumnMetadata :=
  let base : ColumnMetadata :=
    { name := col.name, typeName := col.type.goName,
      recordCount := ops.recordCount w,
      minValue := none, maxValue := none, dictionarySize := 0,
      nullCount := match ops.nullCountQ w with
        | some n => n
        | none => 0 }
  match col.type with
  | .int64 | .timestamp =>
      match ops.minMaxIntQ w with
      | some mm =>
          if base.nullCount < base.recordCount then
            { base with minValue := some (.intVal mm.1), maxValue := some (.intVal mm.2) }
          else base
      | none => base
  | .float64 =>
      match ops.minMaxFloatQ w with
      | some mm =>
          if base.nullCount < base.recordCount then
            { base with minValue := some (.floatVal mm.1), maxValue := some (.floatVal mm.2) }
          else base
      | none => base
  | .string =>
      match ops.dictSizeQ w with
      | some d => { base with dictionarySize := d }
      | none => base
  | .boolean => base

/-! ## Segment writer -/

/-- Segment writer error kinds. -/
inductive SegErr where
  | writeToCommitted
  | missingColumn (c : String)
  | nullViolation (c : String)
  | writeFailed (c : String) (e : ColErr)
  | alreadyCommitted
  | closeFailed (e : ColErr)
  | recordCountMismatch
  | manifestUpdateFailed (e : ManErr)
deriving DecidableEq, Repr

/-- State of a `SegmentWriter`, with the temp/final directories and the
datastore manifest carried as pure state. -/
structure SegState (W : Type) where
  cols : List Column
  writers : List W
  recordCount : Nat
  committed : Bool
  tempExists : Bool
  finalExists : Bool
  segmentId : Nat
  finalPath : String
  metaFile : Option SegmentMetadata
  manifest : Manifest

/-- Models `isNilValue`: the null sentinel. -/
def isNilValue : GoValue → Bool
  | .null => true
  | _ => false

/-- The per-column loop of `WriteRecord`: look the column up in the
record, reject a missing value, reject null for a non-nullable column,
then delegate to the column writer — in schema order, stopping at the
first error with earlier writers already advanced. -/
def writeColumns {W : Type} (ops : WriterOps W) (rec : List (String × GoValue)) :
    List Column → List W → Option SegErr × List W
  | [], ws => (none, ws)
  | _ :: _, [] => (none, [])
  | c :: cs, w :: ws =>
      match List.lookup c.name rec with
      | none => (some (.missingColumn c.name), w :: ws)
      | some v =>
          if !c.nullable && isNilValue v then (some (.nullViolation c.name), w :: ws)
          else
            match ops.write w v with
            | (some e, w2) => (some (.writeFailed c.name e), w2 :: ws)
            | (none, w2) =>
                let r := writeColumns ops rec cs ws
                (r.1, w2 :: r.2)

/-- Models `SegmentWriter.WriteRecord`. -/
def writeRecord {W : Type} (ops : WriterOps W) (s : SegState W)
    (rec : List (String × GoValue)) : Option SegErr × SegState W :=
  if s.committed then (some .writeToCommitted, s) else
  match writeColumns ops rec s.cols s.writers with
  | (some e, ws2) => (some e, { s with writers := ws2 })
  | (none, ws2) => (none, { s with writers := ws2, recordCount := s.recordCount + 1 })

/-- Models `SegmentWriter.Abort`: remove the temp directory, ignoring absence. -/
def segAbort {W : Type} (s : SegState W) : SegState W :=
  { s with tempExists := false }

/-- One step of the best-effort close loop of `Commit`: close the writer
and remember the first error. -/
def commitCloseStep {W : Type} (ops : WriterOps W)
    (acc : List W × Option ColErr) (w : W) : List W × Option ColErr :=
  let r := ops.close w
  (acc.1 ++ [r.2],
    match acc.2 with
    | some e => some e
    | none => r.1)

/-- Models `SegmentWriter.writeMetadata`: one `ColumnMetadata` per schema
column, in order. -/
def buildMetadata {W : Type} (ops : WriterOps W) (s : SegState W) : SegmentMetadata :=
  { segmentId := s.segmentId, recordCount := s.recordCount,
    columns := (s.cols.zip s.writers).map (fun p => columnMeta ops p.1 p.2) }

/-- Models `SegmentWriter.Commit`: best-effort close of every writer (first
error kept), abort on close failure; record-count alignment check;
metadata emission; rename of temp to final; manifest append (a failure
there leaves the segment committed). -/
def commit {W : Type} (ops : WriterOps W) (s : SegState W) : Option SegErr × SegState W :=
  if s.committed then (some .alreadyCommitted, s) else
  let cl := s.writers.foldl (commitCloseStep ops) ([], none)
  let s2 := { s with writers := cl.1 }
  match cl.2 with
  | some e => (some (.closeFailed e), segAbort s2)
  | none =>
      if s2.writers.any (fun w => ops.recordCount w ≠ s2.recordCount) then
        (some .recordCountMismatch, segAbort s2)
      else
        let s3 := { s2 with metaFile := some (buildMetadata ops s2) }
        let s4 := { s3 with tempExists := false, finalExists := true, committed := true }
        match appendManifestItem s4.manifest ⟨Int.ofNat s4.segmentId, s4.finalPath, s4.recordCount⟩ with
        | .error e => (some (.manifestUpdateFailed e), s4)
        | .ok m2 => (none, { s4 with manifest := m2 })

/-- Left-pad a decimal to 6 digits, as `fmt.Sprintf("seg_%06d", id)`. -/
def pad6 (n : Nat) : String :=
  let s := toString n
  String.mk (List.replicate (6 - s.length) (Char.ofNat 48)) ++ s

/-- Models `NewSegmentWriter`: fresh writers from the factory, zero records,
temp directory created. -/
def initSegState (basePath : String) (segmentId : Nat) (cols : List Column) :
    SegState ColWriter :=
  { cols := cols,
    writers := cols.map createColumnWriter,
    recordCount := 0,
    committed := false,
    tempExists := true,
    finalExists := false,
    segmentId := segmentId,
    finalPath := basePath ++ "/seg_" ++ pad6 segmentId,
    metaFile := none,
    manifest := emptyManifest }

/-- A toy writer interface whose close fails on state 0, to exercise the
best-effort close path. -/
def natOps : WriterOps Nat where
  write := fun n _ => (none, n)
  close := fun n => (if n = 0 then some ColErr.alreadyClosed else none, n + 1)
  recordCount := fun n => n
  nullCountQ := fun _ => none
  minMaxIntQ := fun _ => none
  minMaxFloatQ := fun _ => none
  dictSizeQ := fun _ => none

/-- A two-writer segment state over the toy interface whose first close
fails. -/
def natSeg : SegState Nat :=
  { cols := [default, default], writers := [0, 1], recordCount := 0,
    committed := false, tempExists := true, finalExists := false,
    segmentId := 1, finalPath := "segments/seg_000001",
    metaFile := none, manifest := emptyManifest }

/-- A writer has the shape the factory creates for the column type. -/
def writerShapeMatches : ColumnType → ColWriter → Bool
  | .int64, .i64 _ => true
  | .float64, .f64 _ => true
  | .boolean, .bl _ => true
  | .string, .str _ => true
  | .timestamp, .ts _ => true
  | _, _ => false

/-- The type names for which `writeMetadata` can emit min/max. -/
def numericTypeName (t : String) : Bool :=
  t == "int64" || t == "float64" || t == "timestamp"

/-- A committed one-column string segment with no nulls, used to examine
the emitted metadata fields. -/
def c5seg : SegState ColWriter :=
  (commit colWriterOps (writeRecord colWriterOps
    (initSegState "segments" 1 [⟨"id", ColumnType.string, false, 0⟩])
    [("id", GoValue.str "a")]).2).2

/-- A two-column segment — nullable `a` before non-nullable `b` — used
to show validation is interleaved with writing. -/
def c1seg : SegState ColWriter :=
  initSegState "segments" 1
    [⟨"a", ColumnType.int64, true, 0⟩, ⟨"b", ColumnType.int64, false, 1⟩]

theorem packBytes_nil : packBytes [] = [] := by
  rw [packBytes]
  simp

theorem packBytes_ne {bs : List Bool} (h : bs ≠ []) :
    packBytes bs = packByte 0 0 (bs.take 8) :: packBytes (bs.drop 8) := by
  rw [packBytes]
  simp [h]

theorem packByte_concat (p : List Bool) :
    ∀ (byte bit : Nat) (b : Bool),
      packByte byte bit (p ++ [b]) = setBit8 (packByte byte bit p) (bit + p.length) b := by
  induction p with
  | nil => intro byte bit b; simp [packByte]
  | cons x p ih =>
      intro byte bit b
      have h1 : packByte byte bit ((x :: p) ++ [b])
          = packByte (setBit8 byte bit x) (bit + 1) (p ++ [b]) := rfl
      have h2 : packByte byte bit (x :: p)
          = packByte (setBit8 byte bit x) (bit + 1) p := rfl
      rw [h1, ih, h2]
      have h3 : bit + 1 + p.length = bit + (x :: p).length := by
        simp only [List.length_cons]
        omega
      rw [h3]

theorem packBytes_append_chunk_aux :
    ∀ (n : Nat) (full chunk : List Bool), full.length ≤ n → 8 ∣ full.length →
      chunk ≠ [] → chunk.length ≤ 8 →
      packBytes (full ++ chunk) = packBytes full ++ [packByte 0 0 chunk] := by
  intro n
  induction n with
  | zero =>
      intro full chunk hlen _ hne h8
      have hfull : full = [] := List.eq_nil_of_length_eq_zero (Nat.le_zero.mp hlen)
      subst hfull
      rw [List.nil_append, packBytes_nil, List.nil_append, packBytes_ne hne]
      rw [List.take_of_length_le h8, List.drop_eq_nil_of_le h8, packBytes_nil]
  | succ n ih =>
      intro full chunk hlen hdvd hne h8
      by_cases hfull : full = []
      · subst hfull
        rw [List.nil_append, packBytes_nil, List.nil_append, packBytes_ne hne]
        rw [List.take_of_length_le h8, List.drop_eq_nil_of_le h8, packBytes_nil]
      · have hpos : 0 < full.length := List.length_pos.mpr hfull
        have h8le : 8 ≤ full.length := by
          rcases hdvd with ⟨k, hk⟩
          rcases Nat.eq_zero_or_pos k with hk0 | hk0
          · omega
          · omega
        have happne : full ++ chunk ≠ [] := by
          simp [hfull]
        rw [packBytes_ne happne, packBytes_ne hfull]
        rw [List.take_append_of_le_length h8le, List.drop_append_of_le_length h8le]
        have hlen2 : (full.drop 8).length ≤ n := by
          simp only [List.length_drop]
          omega
        have hdvd2 : 8 ∣ (full.drop 8).length := by
          simp only [List.length_drop]
          exact (Nat.dvd_sub' hdvd ⟨1, rfl⟩)
        rw [List.cons_append, ih (full.drop 8) chunk hlen2 hdvd2 hne h8]

theorem packBytes_append_chunk (full chunk : List Bool) (hdvd : 8 ∣ full.length)
    (hne : chunk ≠ []) (h8 : chunk.length ≤ 8) :
    packBytes (full ++ chunk) = packBytes full ++ [packByte 0 0 chunk] :=
  packBytes_append_chunk_aux full.length full chunk le_rfl hdvd hne h8

theorem testBit_setBit8 (byte bit : Nat) (b : Bool) (j : Nat) :
    (setBit8 byte bit b).testBit j
      = (byte.testBit j || (b && decide (j = 7 - bit))) := by
  unfold setBit8
  cases b with
  | false => simp
  | true =>
      simp only [if_pos]
      rw [Nat.testBit_or]
      congr 1
      rw [Nat.shiftLeft_eq, Nat.one_mul, Nat.testBit_two_pow]
      simp [eq_comm]

theorem packByte_testBit (p : List Bool) :
    ∀ (byte bit : Nat), bit + p.length ≤ 8 →
      (∀ j, bit ≤ j → j ≤ 7 → byte.testBit (7 - j) = false) →
      ∀ pos, pos ≤ 7 →
        (packByte byte bit p).testBit (7 - pos)
          = if bit ≤ pos ∧ pos < bit + p.length then p.getD (pos - bit) false
            else byte.testBit (7 - pos) := by
  induction p with
  | nil =>
      intro byte bit _ _ pos _
      simp only [packByte, List.length_nil, Nat.add_zero]
      rw [if_neg]
      omega
  | cons b rest ih =>
      intro byte bit hle hclean pos hpos
      have hred : packByte byte bit (b :: rest)
          = packByte (setBit8 byte bit b) (bit + 1) rest := rfl
      rw [hred]
      have hle2 : (bit + 1) + rest.length ≤ 8 := by
        simp only [List.length_cons] at hle
        omega
      have hbit7 : bit ≤ 7 := by
        simp only [List.length_cons] at hle
        omega
      have hclean2 : ∀ j, bit + 1 ≤ j → j ≤ 7 →
          (setBit8 byte bit b).testBit (7 - j) = false := by
        intro j hj1 hj7
        rw [testBit_setBit8]
        have hne : ¬(7 - j = 7 - bit) := by omega
        simp [hne, hclean j (by omega) hj7]
      rw [ih (setBit8 byte bit b) (bit + 1) hle2 hclean2 pos hpos]
      rcases Nat.lt_trichotomy pos bit with hc | hc | hc
      · rw [if_neg (by omega), if_neg (by omega), testBit_setBit8]
        have hne : ¬(7 - pos = 7 - bit) := by omega
        simp [hne]
      · subst hc
        rw [if_neg (by omega), if_pos (by simp only [List.length_cons]; omega)]
        rw [testBit_setBit8, hclean pos le_rfl hpos]
        simp
      · by_cases hin : pos < bit + (b :: rest).length
        · have hin2 : bit + 1 ≤ pos ∧ pos < bit + 1 + rest.length := by
            simp only [List.length_cons] at hin
            omega
          rw [if_pos hin2, if_pos ⟨by omega, hin⟩]
          have hgd : (b :: rest).getD (pos - bit) false
              = rest.getD (pos - (bit + 1)) false := by
            have hsub : pos - bit = (pos - (bit + 1)) + 1 := by omega
            rw [hsub]
            rfl
          rw [hgd]
        · have hin2 : ¬(bit + 1 ≤ pos ∧ pos < bit + 1 + rest.length) := by
            simp only [List.length_cons] at hin
            omega
          rw [if_neg hin2, if_neg (by omega), testBit_setBit8]
          have hne : ¬(7 - pos = 7 - bit) := by omega
          simp [hne]

theorem packByte00_testBit (p : List Bool) (hp : p.length ≤ 8) (pos : Nat) (hpos : pos ≤ 7) :
    (packByte 0 0 p).testBit (7 - pos) = p.getD pos false := by
  rw [packByte_testBit p 0 0 (by omega) (by intro j _ _; simp) pos hpos]
  by_cases hin : pos < p.length
  · rw [if_pos ⟨Nat.zero_le _, by omega⟩, Nat.sub_zero]
  · rw [if_neg (by omega), Nat.zero_testBit]
    exact (List.getD_eq_default p false (Nat.le_of_not_lt hin)).symm

theorem getD_take_lt {α : Type} (l : List α) (n i : Nat) (d : α) (h : i < n) :
    (l.take n).getD i d = l.getD i d := by
  simp only [List.getD_eq_getElem?_getD]
  rw [List.getElem?_take]
  simp [h]

theorem getD_drop {α : Type} (l : List α) (n i : Nat) (d : α) :
    (l.drop n).getD i d = l.getD (n + i) d := by
  simp only [List.getD_eq_getElem?_getD]
  rw [List.getElem?_drop]

theorem packBytes_bit_aux :
    ∀ (n : Nat) (bs : List Bool), bs.length ≤ n → ∀ i,
      ((packBytes bs).getD (i / 8) 0).testBit (7 - i % 8) = bs.getD i false := by
  intro n
  induction n with
  | zero =>
      intro bs hlen i
      have hbs : bs = [] := List.eq_nil_of_length_eq_zero (Nat.le_zero.mp hlen)
      subst hbs
      simp [packBytes_nil]
  | succ n ih =>
      intro bs hlen i
      by_cases hbs : bs = []
      · subst hbs
        simp [packBytes_nil]
      · rw [packBytes_ne hbs]
        by_cases hi : i < 8
        · rw [Nat.div_eq_of_lt hi, Nat.mod_eq_of_lt hi]
          have hgd : (packByte 0 0 (bs.take 8) :: packBytes (bs.drop 8)).getD 0 0
              = packByte 0 0 (bs.take 8) := rfl
          rw [hgd]
          rw [packByte00_testBit (bs.take 8) (by simp) i (by omega)]
          exact getD_take_lt bs 8 i false hi
        · have h8 : 8 ≤ i := Nat.le_of_not_lt hi
          have hdiv : i / 8 = (i - 8) / 8 + 1 := by
            omega
          have hmod : i % 8 = (i - 8) % 8 := by
            omega
          rw [hdiv, hmod]
          have hgd : (packByte 0 0 (bs.take 8) :: packBytes (bs.drop 8)).getD ((i - 8) / 8 + 1) 0
              = (packBytes (bs.drop 8)).getD ((i - 8) / 8) 0 := rfl
          rw [hgd]
          have hlen2 : (bs.drop 8).length ≤ n := by
            have : 0 < bs.length := List.length_pos.mpr hbs
            simp only [List.length_drop]
            omega
          rw [ih (bs.drop 8) hlen2 (i - 8)]
          rw [getD_drop]
          congr 1
          omega

/-- Bit `7 - i % 8` of byte `i / 8` of the packed bitmap is bit `i` of the
input, and `false` beyond the input (the padding bits). -/
theorem packBytes_bit (bs : List Bool) (i : Nat) :
    ((packBytes bs).getD (i / 8) 0).testBit (7 - i % 8) = bs.getD i false :=
  packBytes_bit_aux bs.length bs le_rfl i

theorem packBytes_length_aux :
    ∀ (n : Nat) (bs : List Bool), bs.length ≤ n →
      (packBytes bs).length = (bs.length + 7) / 8 := by
  intro n
  induction n with
  | zero =>
      intro bs hlen
      have hbs : bs = [] := List.eq_nil_of_length_eq_zero (Nat.le_zero.mp hlen)
      subst hbs
      simp [packBytes_nil]
  | succ n ih =>
      intro bs hlen
      by_cases hbs : bs = []
      · subst hbs
        simp [packBytes_nil]
      · rw [packBytes_ne hbs]
        have hpos : 0 < bs.length := List.length_pos.mpr hbs
        have hlen2 : (bs.drop 8).length ≤ n := by
          simp only [List.length_drop]
          omega
        rw [List.length_cons, ih (bs.drop 8) hlen2]
        simp only [List.length_drop]
        omega

theorem packBytes_length (bs : List Bool) :
    (packBytes bs).length = (bs.length + 7) / 8 :=
  packBytes_length_aux bs.length bs le_rfl

theorem bitmapRel_init : bitmapRel [] 0 0 [] := by
  refine ⟨[], [], by simp, by simp, ⟨0, rfl⟩, ?_, rfl, rfl⟩
  rw [packBytes_nil]

theorem nullAppend_full (bytes : List Nat) (byte bit : Nat) (b : Bool)
    (h : bit + 1 = 8) :
    nullAppend bytes byte bit b = (bytes ++ [setBit8 byte bit b], 0, 0) := by
  unfold nullAppend
  have hb : (bit + 1 == 8) = true := beq_iff_eq.mpr h
  simp [hb]

theorem nullAppend_mid (bytes : List Nat) (byte bit : Nat) (b : Bool)
    (h : bit + 1 ≠ 8) :
    nullAppend bytes byte bit b = (bytes, setBit8 byte bit b, bit + 1) := by
  unfold nullAppend
  have hb : (bit + 1 == 8) = false := by
    rw [beq_eq_false_iff_ne]
    exact h
  simp [hb]

theorem bitmapRel_step {bytes : List Nat} {byte bit : Nat} {flags : List Bool}
    (h : bitmapRel bytes byte bit flags) (b : Bool) :
    bitmapRel (nullAppend bytes byte bit b).1 (nullAppend bytes byte bit b).2.1
      (nullAppend bytes byte bit b).2.2 (flags ++ [b]) := by
  rcases h with ⟨full, rem, hflags, hrem, hdvd, hbytes, hbyte, hbit⟩
  subst hflags hbytes hbyte hbit
  by_cases hfull8 : rem.length + 1 = 8
  · rw [nullAppend_full _ _ _ _ hfull8]
    refine ⟨full ++ (rem ++ [b]), [], ?_, ?_, ?_, ?_, ?_, ?_⟩
    · simp
    · simp
    · rcases hdvd with ⟨k, hk⟩
      refine ⟨k + 1, ?_⟩
      simp only [List.length_append, List.length_append, List.length_cons, List.length_nil, hk]
      omega
    · show packBytes full ++ [setBit8 (packByte 0 0 rem) rem.length b]
          = packBytes (full ++ (rem ++ [b]))
      rw [packBytes_append_chunk full (rem ++ [b]) hdvd (by simp) (by simp; omega)]
      rw [packByte_concat rem 0 0 b]
      simp
    · show (0 : Nat) = packByte 0 0 []
      rfl
    · simp
  · rw [nullAppend_mid _ _ _ _ hfull8]
    refine ⟨full, rem ++ [b], ?_, ?_, hdvd, rfl, ?_, ?_⟩
    · simp
    · simp only [List.length_append, List.length_cons, List.length_nil]
      omega
    · rw [packByte_concat rem 0 0 b]
      simp
    · simp

theorem int64Write_fields (w : Int64State) (h : w.closed = false) (o : Option Int) :
    ((int64Write w (ovToVal o)).2).closed = false ∧
    ((int64Write w (ovToVal o)).2).count = w.count + 1 ∧
    (((int64Write w (ovToVal o)).2).nulls, ((int64Write w (ovToVal o)).2).nullByte,
      ((int64Write w (ovToVal o)).2).nullBit)
        = nullAppend w.nulls w.nullByte w.nullBit o.isSome := by
  cases o with
  | none =>
      simp [int64Write, ovToVal, h]
  | some n =>
      by_cases hv : w.hasValue
      · simp [int64Write, ovToVal, h, hv]
      · simp [int64Write, ovToVal, h, hv]

theorem int64WriteList_bitmap :
    ∀ (ws : List (Option Int)) (w : Int64State) (flags : List Bool),
      w.closed = false → bitmapRel w.nulls w.nullByte w.nullBit flags →
      (int64WriteList w (ws.map ovToVal)).closed = false ∧
      (int64WriteList w (ws.map ovToVal)).count = w.count + ws.length ∧
      bitmapRel (int64WriteList w (ws.map ovToVal)).nulls
        (int64WriteList w (ws.map ovToVal)).nullByte
        (int64WriteList w (ws.map ovToVal)).nullBit
        (flags ++ ws.map Option.isSome) := by
  intro ws
  induction ws with
  | nil =>
      intro w flags h hrel
      refine ⟨h, by simp [int64WriteList], ?_⟩
      simpa [int64WriteList] using hrel
  | cons o rest ih =>
      intro w flags h hrel
      have hstep := int64Write_fields w h o
      have hlist : int64WriteList w ((o :: rest).map ovToVal)
          = int64WriteList (int64Write w (ovToVal o)).2 (rest.map ovToVal) := by
        simp [int64WriteList]
      rw [hlist]
      have hrel2 : bitmapRel ((int64Write w (ovToVal o)).2).nulls
          ((int64Write w (ovToVal o)).2).nullByte
          ((int64Write w (ovToVal o)).2).nullBit (flags ++ [o.isSome]) := by
        have := bitmapRel_step hrel o.isSome
        rcases hstep with ⟨_, _, htuple⟩
        have h1 := congrArg Prod.fst htuple
        have h23 := congrArg Prod.snd htuple
        have h2 := congrArg Prod.fst h23
        have h3 := congrArg Prod.snd h23
        dsimp only at h1 h2 h3
        rw [h1, h2, h3]
        exact this
      have := ih (int64Write w (ovToVal o)).2 (flags ++ [o.isSome]) hstep.1 hrel2
      refine ⟨this.1, ?_, ?_⟩
      · rw [this.2.1, hstep.2.1]
        simp only [List.length_cons]
        omega
      · have harr : flags ++ [o.isSome] ++ rest.map Option.isSome
            = flags ++ (o :: rest).map Option.isSome := by
          simp
        rw [harr] at this
        exact this.2.2

theorem int64Close_packs (w : Int64State) (h : w.closed = false) (flags : List Bool)
    (hrel : bitmapRel w.nulls w.nullByte w.nullBit flags) :
    ((int64Close w).2).nulls = packBytes flags := by
  rcases hrel with ⟨full, rem, hfl, hrem, hdvd, hbytes, hbyte, hbit⟩
  unfold int64Close
  simp only [h, Bool.false_eq_true, if_false]
  by_cases hr : rem = []
  · subst hr
    have hb0 : w.nullBit = 0 := by simp [hbit]
    simp only [hb0, gt_iff_lt, Nat.lt_irrefl, if_false]
    rw [hbytes, hfl]
    simp
  · have hbpos : w.nullBit > 0 := by
      rw [hbit]
      exact List.length_pos.mpr hr
    simp only [hbpos, gt_iff_lt, if_pos]
    rw [hbytes, hbyte, hfl]
    exact (packBytes_append_chunk full rem hdvd hr (by omega)).symm

theorem getD_map_isSome {α : Type} (ws : List (Option α)) (i : Nat) :
    (ws.map Option.isSome).getD i false = (ws.getD i none).isSome := by
  simp only [List.getD_eq_getElem?_getD, List.getElem?_map]
  cases h : ws[i]? with
  | none => simp
  | some o => simp

/-- C3: Every input accepted by the timestamp writer is stored as an
int64: an absolute int64 unchanged, and a wall-clock instant as its
nanoseconds-since-Unix-epoch integer (`UnixNano()`), appended to the
value file as an 8-byte little-endian encoding — never milliseconds. -/
theorem timestamp_write_encodes_nanos (w : TimestampState) (h : w.inner.closed = false) :
    (∀ v : Int,
      (tsWrite w (.int v)).1 = none ∧
      ((tsWrite w (.int v)).2).inner.values = w.inner.values ++ leBytes64 v) ∧
    (∀ t : Instant,
      (tsWrite w (.time t)).1 = none ∧
      ((tsWrite w (.time t)).2).inner.values
          = w.inner.values ++ leBytes64 t.unixNano ∧
      (leBytes64 t.unixNano).length = 8) := by
  constructor
  · intro v
    by_cases hv : w.inner.hasValue
    · constructor <;> simp [tsWrite, int64Write, h, hv]
    · constructor <;> simp [tsWrite, int64Write, h, hv]
  · intro t
    refine ⟨?_, ?_, by simp [leBytes64]⟩
    · by_cases hv : w.inner.hasValue
      · simp [tsWrite, int64Write, h, hv]
      · simp [tsWrite, int64Write, h, hv]
    · by_cases hv : w.inner.hasValue
      · simp [tsWrite, int64Write, h, hv]
      · simp [tsWrite, int64Write, h, hv]

theorem timestamp_write_encodes_nanos_witness :
    tsInit.inner.closed = false ∧
    ((tsWrite tsInit (GoValue.time ⟨1, 0⟩)).2).inner.values = leBytes64 1000000000 := by
  constructor
  · rfl
  · have h := ((timestamp_write_encodes_nanos tsInit rfl).2 ⟨1, 0⟩).2.1
    rw [h]
    norm_num [Instant.unixNano, tsInit, int64Init]

/-- C8: On an open float64 writer, writing NaN returns a
disallowed-value error and leaves the state (bitmap, value file, counts,
closed flag) exactly unchanged, so the writer remains usable. -/
theorem float64_write_nan_rejected (w : Float64State) (h : w.closed = false) :
    float64Write w (.float .nan) = (some ColErr.disallowedValue, w) := by
  simp [float64Write, h, GoFloat.isNaN]

theorem float64_write_nan_rejected_witness :
    float64Init.closed = false ∧
    float64Write float64Init (.float .nan) = (some ColErr.disallowedValue, float64Init) :=
  ⟨rfl, float64_write_nan_rejected float64Init rfl⟩

theorem int64WriteList_nulls_minmax :
    ∀ (vs : List GoValue) (w : Int64State), (∀ v ∈ vs, v = GoValue.null) →
      (int64WriteList w vs).min = w.min ∧ (int64WriteList w vs).max = w.max := by
  intro vs
  induction vs with
  | nil => intro w _; exact ⟨rfl, rfl⟩
  | cons v rest ih =>
      intro w hall
      have hv : v = GoValue.null := hall v (by simp)
      subst hv
      have hlist : int64WriteList w (GoValue.null :: rest)
          = int64WriteList (int64Write w .null).2 rest := by
        simp [int64WriteList]
      rw [hlist]
      have hmm : ((int64Write w .null).2).min = w.min ∧ ((int64Write w .null).2).max = w.max := by
        by_cases hc : w.closed <;> simp [int64Write, hc]
      have := ih (int64Write w .null).2 (fun v hv => hall v (by simp [hv]))
      rw [this.1, this.2, hmm.1, hmm.2]
      exact ⟨rfl, rfl⟩

theorem float64WriteList_nulls_minmax :
    ∀ (vs : List GoValue) (w : Float64State), (∀ v ∈ vs, v = GoValue.null) →
      (float64WriteList w vs).min = w.min ∧ (float64WriteList w vs).max = w.max := by
  intro vs
  induction vs with
  | nil => intro w _; exact ⟨rfl, rfl⟩
  | cons v rest ih =>
      intro w hall
      have hv : v = GoValue.null := hall v (by simp)
      subst hv
      have hlist : float64WriteList w (GoValue.null :: rest)
          = float64WriteList (float64Write w .null).2 rest := by
        simp [float64WriteList]
      rw [hlist]
      have hmm : ((float64Write w .null).2).min = w.min ∧
          ((float64Write w .null).2).max = w.max := by
        by_cases hc : w.closed <;> simp [float64Write, hc]
      have := ih (float64Write w .null).2 (fun v hv => hall v (by simp [hv]))
      rw [this.1, this.2, hmm.1, hmm.2]
      exact ⟨rfl, rfl⟩

theorem tsWriteList_nulls_inner :
    ∀ (vs : List GoValue) (w : Int64State), (∀ v ∈ vs, v = GoValue.null) →
      (tsWriteList ⟨w⟩ vs).inner = int64WriteList w vs := by
  intro vs
  induction vs with
  | nil => intro w _; rfl
  | cons v rest ih =>
      intro w hall
      have hv : v = GoValue.null := hall v (by simp)
      subst hv
      have h1 : tsWriteList ⟨w⟩ (GoValue.null :: rest)
          = tsWriteList ⟨(int64Write w .null).2⟩ rest := by
        simp [tsWriteList, tsWrite]
      have h2 : int64WriteList w (GoValue.null :: rest)
          = int64WriteList (int64Write w .null).2 rest := by
        simp [int64WriteList]
      rw [h1, h2]
      exact ih (int64Write w .null).2 (fun v hv => hall v (by simp [hv]))

/-- C10: On an int64, float64 or timestamp writer that has seen only
nulls (or nothing at all), the public `Min()` and `Max()` accessors both
return 0 (the zero value), not an error or an absent value. -/
theorem minmax_zero_when_no_values (ws : List GoValue) (h : ∀ v ∈ ws, v = GoValue.null) :
    int64Min (int64WriteList int64Init ws) = 0 ∧
    int64Max (int64WriteList int64Init ws) = 0 ∧
    float64Min (float64WriteList float64Init ws) = GoFloat.finite 0 ∧
    float64Max (float64WriteList float64Init ws) = GoFloat.finite 0 ∧
    tsMin (tsWriteList tsInit ws) = 0 ∧
    tsMax (tsWriteList tsInit ws) = 0 := by
  have h1 := int64WriteList_nulls_minmax ws int64Init h
  have h2 := float64WriteList_nulls_minmax ws float64Init h
  have h3 := tsWriteList_nulls_inner ws int64Init h
  refine ⟨?_, ?_, ?_, ?_, ?_, ?_⟩
  · rw [int64Min, h1.1]; rfl
  · rw [int64Max, h1.2]; rfl
  · rw [float64Min, h2.1]; rfl
  · rw [float64Max, h2.2]; rfl
  · show int64Min (tsWriteList ⟨int64Init⟩ ws).inner = 0
    rw [h3, int64Min, h1.1]
    rfl
  · show int64Max (tsWriteList ⟨int64Init⟩ ws).inner = 0
    rw [h3, int64Max, h1.2]
    rfl

theorem minmax_zero_when_no_values_witness :
    (∀ v ∈ [GoValue.null, GoValue.null], v = GoValue.null) ∧
    int64Min (int64WriteList int64Init [GoValue.null, GoValue.null]) = 0 ∧
    tsMax (tsWriteList tsInit [GoValue.null, GoValue.null]) = 0 := by
  refine ⟨by decide, ?_, ?_⟩
  · exact (minmax_zero_when_no_values [GoValue.null, GoValue.null] (by decide)).1
  · exact (minmax_zero_when_no_values [GoValue.null, GoValue.null] (by decide)).2.2.2.2.2

theorem getD_append_lt {α : Type} (l l2 : List α) (i : Nat) (d : α) (h : i < l.length) :
    (l ++ l2).getD i d = l.getD i d := by
  simp only [List.getD_eq_getElem?_getD]
  rw [List.getElem?_append_left h]

theorem getD_append_len {α : Type} (l : List α) (x : α) (d : α) :
    (l ++ [x]).getD l.length d = x := by
  simp only [List.getD_eq_getElem?_getD]
  rw [List.getElem?_append_right le_rfl]
  simp

theorem mem_firstSeen_aux (xs : List String) :
    ∀ (acc : List String) (x : String),
      (x ∈ xs.foldl (fun acc s => if s ∈ acc then acc else acc ++ [s]) acc
        ↔ x ∈ acc ∨ x ∈ xs) := by
  induction xs with
  | nil => intro acc x; simp
  | cons s rest ih =>
      intro acc x
      have hstep : (s :: rest).foldl (fun acc s => if s ∈ acc then acc else acc ++ [s]) acc
          = rest.foldl (fun acc s => if s ∈ acc then acc else acc ++ [s])
              (if s ∈ acc then acc else acc ++ [s]) := rfl
      rw [hstep, ih]
      by_cases hs : s ∈ acc
      · simp only [if_pos hs, List.mem_cons]
        constructor
        · rintro (hx | hx)
          · exact Or.inl hx
          · exact Or.inr (Or.inr hx)
        · rintro (hx | hx | hx)
          · exact Or.inl hx
          · exact Or.inl (hx ▸ hs)
          · exact Or.inr hx
      · simp only [if_neg hs, List.mem_append, List.mem_singleton, List.mem_cons]
        tauto

theorem mem_firstSeen (xs : List String) (x : String) :
    x ∈ firstSeen xs ↔ x ∈ xs := by
  unfold firstSeen
  rw [mem_firstSeen_aux]
  simp

theorem firstSeen_append1 (xs : List String) (x : String) :
    firstSeen (xs ++ [x])
      = if x ∈ firstSeen xs then firstSeen xs else firstSeen xs ++ [x] := by
  unfold firstSeen
  rw [List.foldl_append]
  rfl

theorem firstSeen_length_le_aux (xs : List String) :
    ∀ acc : List String,
      (xs.foldl (fun acc s => if s ∈ acc then acc else acc ++ [s]) acc).length
        ≤ acc.length + xs.length := by
  induction xs with
  | nil => intro acc; simp
  | cons s rest ih =>
      intro acc
      have hstep : (s :: rest).foldl (fun acc s => if s ∈ acc then acc else acc ++ [s]) acc
          = rest.foldl (fun acc s => if s ∈ acc then acc else acc ++ [s])
              (if s ∈ acc then acc else acc ++ [s]) := rfl
      rw [hstep]
      by_cases hs : s ∈ acc
      · rw [if_pos hs]
        have := ih acc
        simp only [List.length_cons]
        omega
      · rw [if_neg hs]
        have := ih (acc ++ [s])
        simp only [List.length_append, List.length_cons, List.length_nil] at this ⊢
        omega

theorem firstSeen_length_le (xs : List String) :
    (firstSeen xs).length ≤ xs.length := by
  have := firstSeen_length_le_aux xs []
  simpa using this

theorem dictInv_init : dictInv stringInit [] := by
  refine ⟨rfl, rfl, rfl, ?_, rfl, ?_⟩
  · intro t
    rfl
  · intro i hi
    simp at hi

theorem stringWrite_null_fields (w : StringState) (h : w.closed = false) :
    ((stringWrite w .null).2).closed = false ∧
    ((stringWrite w .null).2).ids = w.ids ++ [0] ∧
    ((stringWrite w .null).2).idToStr = w.idToStr ∧
    ((stringWrite w .null).2).strToID = w.strToID ∧
    ((stringWrite w .null).2).recordCount = w.recordCount + 1 := by
  simp [stringWrite, h]

theorem stringWrite_found_fields (w : StringState) (h : w.closed = false)
    (s : String) (id : Nat) (hf : List.lookup s w.strToID = some id) :
    ((stringWrite w (.str s)).2).closed = false ∧
    ((stringWrite w (.str s)).2).ids = w.ids ++ [id] ∧
    ((stringWrite w (.str s)).2).idToStr = w.idToStr ∧
    ((stringWrite w (.str s)).2).strToID = w.strToID ∧
    ((stringWrite w (.str s)).2).recordCount = w.recordCount + 1 := by
  simp [stringWrite, h, hf]

theorem stringWrite_new_fields (w : StringState) (h : w.closed = false)
    (s : String) (hf : List.lookup s w.strToID = none) :
    ((stringWrite w (.str s)).2).closed = false ∧
    ((stringWrite w (.str s)).2).ids = w.ids ++ [u32 (w.idToStr.length + 1)] ∧
    ((stringWrite w (.str s)).2).idToStr = w.idToStr ++ [s] ∧
    ((stringWrite w (.str s)).2).strToID = (s, u32 (w.idToStr.length + 1)) :: w.strToID ∧
    ((stringWrite w (.str s)).2).recordCount = w.recordCount + 1 := by
  simp [stringWrite, h, hf]

theorem getD_some_mem_filterMap (ws : List (Option String)) (i : Nat) (t : String)
    (hi : i < ws.length) (h : ws.getD i none = some t) : t ∈ ws.filterMap id := by
  rw [List.getD_eq_getElem?_getD, List.getElem?_eq_getElem hi] at h
  simp only [Option.getD_some] at h
  rw [List.mem_filterMap]
  exact ⟨some t, h ▸ List.getElem_mem hi, rfl⟩

theorem dictInv_step_null (w : StringState) (ws : List (Option String))
    (h : dictInv w ws) : dictInv ((stringWrite w .null).2) (ws ++ [none]) := by
  obtain ⟨hcl, hrc, hdict, hlook, hlen, hids⟩ := h
  obtain ⟨f1, f2, f3, f4, f5⟩ := stringWrite_null_fields w hcl
  refine ⟨f1, ?_, ?_, ?_, ?_, ?_⟩
  · rw [f5, hrc]
    simp
  · rw [f3, hdict]
    simp [List.filterMap_append]
  · intro t
    rw [f4, f3]
    exact hlook t
  · rw [f2]
    simp [hlen]
  · intro i hi
    simp only [List.length_append, List.length_cons, List.length_nil] at hi
    rw [f2, f3]
    by_cases hilt : i < ws.length
    · rw [getD_append_lt w.ids [0] i 0 (by rw [hlen]; exact hilt),
        getD_append_lt ws [none] i none hilt]
      exact hids i hilt
    · have hieq : i = ws.length := by omega
      subst hieq
      rw [show ws.length = w.ids.length from hlen.symm, getD_append_len]
      rw [show w.ids.length = ws.length from hlen, getD_append_len]

theorem dictInv_step_found (w : StringState) (ws : List (Option String)) (s : String)
    (sid : Nat) (hf : List.lookup s w.strToID = some sid)
    (h : dictInv w ws) : dictInv ((stringWrite w (.str s)).2) (ws ++ [some s]) := by
  obtain ⟨hcl, hrc, hdict, hlook, hlen, hids⟩ := h
  obtain ⟨f1, f2, f3, f4, f5⟩ := stringWrite_found_fields w hcl s sid hf
  have hls := hlook s
  rw [hf] at hls
  have hfind : ∃ k, w.idToStr.findIdx? (fun u => u == s) = some k ∧ sid = u32 (k + 1) := by
    cases hk : w.idToStr.findIdx? (fun u => u == s) with
    | none =>
        rw [hk] at hls
        simp at hls
    | some k =>
        rw [hk] at hls
        injection hls with hv
        exact ⟨k, rfl, hv⟩
  obtain ⟨k, hk, hid⟩ := hfind
  have hmem : s ∈ w.idToStr := by
    by_contra hno
    have hnone : w.idToStr.findIdx? (fun u => u == s) = none := by
      rw [List.findIdx?_eq_none_iff]
      intro x hx
      have hxs : ¬(x = s) := fun he => hno (he ▸ hx)
      simp [hxs]
    rw [hnone] at hk
    exact Option.noConfusion hk
  have hseen : s ∈ firstSeen (ws.filterMap id) := hdict ▸ hmem
  have hfs : firstSeen ((ws ++ [some s]).filterMap id) = firstSeen (ws.filterMap id) := by
    rw [List.filterMap_append]
    rw [show (List.filterMap id [some s] : List String) = [s] from rfl]
    rw [firstSeen_append1, if_pos hseen]
  refine ⟨f1, ?_, ?_, ?_, ?_, ?_⟩
  · rw [f5, hrc]
    simp
  · rw [f3, hdict]
    exact hfs.symm
  · intro t
    rw [f4, f3]
    exact hlook t
  · rw [f2]
    simp [hlen]
  · intro i hi
    simp only [List.length_append, List.length_cons, List.length_nil] at hi
    rw [f2, f3]
    by_cases hilt : i < ws.length
    · rw [getD_append_lt w.ids [sid] i 0 (by rw [hlen]; exact hilt),
        getD_append_lt ws [some s] i none hilt]
      exact hids i hilt
    · have hieq : i = ws.length := by omega
      subst hieq
      rw [show ws.length = w.ids.length from hlen.symm, getD_append_len]
      rw [show w.ids.length = ws.length from hlen, getD_append_len]
      have hfi : w.idToStr.findIdx (fun u => u == s) = k := by
        rw [List.findIdx_eq_findIdx?, hk]
      show sid = u32 (w.idToStr.findIdx (fun u => u == s) + 1)
      rw [hfi]
      exact hid

theorem dictInv_step_new (w : StringState) (ws : List (Option String)) (s : String)
    (hf : List.lookup s w.strToID = none)
    (h : dictInv w ws) : dictInv ((stringWrite w (.str s)).2) (ws ++ [some s]) := by
  obtain ⟨hcl, hrc, hdict, hlook, hlen, hids⟩ := h
  obtain ⟨f1, f2, f3, f4, f5⟩ := stringWrite_new_fields w hcl s hf
  have hls := hlook s
  rw [hf] at hls
  have hnone : w.idToStr.findIdx? (fun u => u == s) = none := by
    cases hk : w.idToStr.findIdx? (fun u => u == s) with
    | none => rfl
    | some k =>
        rw [hk] at hls
        exact Option.noConfusion hls
  have hallf : ∀ x ∈ w.idToStr, (x == s) = false := List.findIdx?_eq_none_iff.mp hnone
  have hno : s ∉ w.idToStr := by
    intro hmem
    have := hallf s hmem
    simp at this
  have hnoseen : s ∉ firstSeen (ws.filterMap id) := hdict ▸ hno
  have hfs : firstSeen ((ws ++ [some s]).filterMap id)
      = firstSeen (ws.filterMap id) ++ [s] := by
    rw [List.filterMap_append]
    rw [show (List.filterMap id [some s] : List String) = [s] from rfl]
    rw [firstSeen_append1, if_neg hnoseen]
  refine ⟨f1, ?_, ?_, ?_, ?_, ?_⟩
  · rw [f5, hrc]
    simp
  · rw [f3, hfs, hdict]
  · intro t
    rw [f4, f3]
    by_cases hts : t = s
    · subst hts
      have hlc : List.lookup t ((t, u32 (w.idToStr.length + 1)) :: w.strToID)
          = some (u32 (w.idToStr.length + 1)) := by
        simp [List.lookup]
      rw [hlc, List.findIdx?_append, hnone]
      have hone : List.findIdx? (fun u => u == t) [t] = some 0 := by
        simp [List.findIdx?_cons]
      rw [hone]
      simp
    · have hlc : List.lookup t ((s, u32 (w.idToStr.length + 1)) :: w.strToID)
          = List.lookup t w.strToID := by
        simp [List.lookup, show (t == s) = false by simp [hts]]
      rw [hlc, hlook t, List.findIdx?_append]
      have hz : List.findIdx? (fun u => u == t) [s] = none := by
        simp [List.findIdx?_cons]
        exact fun he => hts he.symm
      rw [hz]
      simp
  · rw [f2]
    simp [hlen]
  · intro i hi
    simp only [List.length_append, List.length_cons, List.length_nil] at hi
    rw [f2, f3]
    by_cases hilt : i < ws.length
    · rw [getD_append_lt w.ids [u32 (w.idToStr.length + 1)] i 0 (by rw [hlen]; exact hilt),
        getD_append_lt ws [some s] i none hilt]
      have hold := hids i hilt
      cases hws : ws.getD i none with
      | none =>
          rw [hws] at hold
          exact hold
      | some t =>
          rw [hws] at hold
          have hold2 : w.ids.getD i 0
              = u32 (w.idToStr.findIdx (fun u => u == t) + 1) := hold
          show w.ids.getD i 0 = u32 ((w.idToStr ++ [s]).findIdx (fun u => u == t) + 1)
          have htmem : t ∈ w.idToStr := by
            have hmf := getD_some_mem_filterMap ws i t hilt hws
            rw [hdict]
            exact (mem_firstSeen _ t).mpr hmf
          have hlt : w.idToStr.findIdx (fun u => u == t) < w.idToStr.length :=
            List.findIdx_lt_length_of_exists ⟨t, htmem, by simp⟩
          rw [List.findIdx_append, if_pos hlt]
          exact hold2
    · have hieq : i = ws.length := by omega
      subst hieq
      rw [show ws.length = w.ids.length from hlen.symm, getD_append_len]
      rw [show w.ids.length = ws.length from hlen, getD_append_len]
      show u32 (w.idToStr.length + 1)
          = u32 ((w.idToStr ++ [s]).findIdx (fun u => u == s) + 1)
      have hnf : w.idToStr.findIdx (fun u => u == s) = w.idToStr.length :=
        List.findIdx_eq_length_of_false hallf
      rw [List.findIdx_append, if_neg (by rw [hnf]; omega)]
      have h0 : List.findIdx (fun u => u == s) [s] = 0 := by
        simp [List.findIdx_cons]
      rw [h0]
      simp

theorem stringWriteList_inv (ws : List (Option String)) :
    dictInv (stringWriteList stringInit (ws.map osToVal)) ws := by
  induction ws using List.reverseRecOn with
  | nil => exact dictInv_init
  | append_singleton ws o ih =>
      have hsplit : stringWriteList stringInit ((ws ++ [o]).map osToVal)
          = (stringWrite (stringWriteList stringInit (ws.map osToVal)) (osToVal o)).2 := by
        simp [stringWriteList, List.map_append, List.foldl_append]
      rw [hsplit]
      cases o with
      | none => exact dictInv_step_null _ ws ih
      | some s =>
          cases hf : List.lookup s (stringWriteList stringInit (ws.map osToVal)).strToID with
          | some sid => exact dictInv_step_found _ ws s sid hf ih
          | none => exact dictInv_step_new _ ws s hf ih

/-- C2: The string writer assigns dictionary ids in first-seen order
starting at 1 (id 0 reserved for NULL): the ids file holds, per write, 0
for null and `1 + (first-seen index of the string)` otherwise (so
repeated strings reuse their id), and after close the dictionary file
lists the distinct strings in id order as length-prefixed entries. -/
theorem string_dictionary_first_seen (ws : List (Option String))
    (hlen : ws.length < 4294967296) :
    (stringWriteList stringInit (ws.map osToVal)).idToStr
        = firstSeen (ws.filterMap id) ∧
    (∀ i, i < ws.length →
      (stringWriteList stringInit (ws.map osToVal)).ids.getD i 0
        = (match ws.getD i none with
           | none => 0
           | some t => (firstSeen (ws.filterMap id)).findIdx (fun u => u == t) + 1)) ∧
    ((stringClose (stringWriteList stringInit (ws.map osToVal))).2).dict
        = (firstSeen (ws.filterMap id)).map (fun t => (t.utf8ByteSize, t)) := by
  obtain ⟨hcl, hrc, hdict, hlook, hl, hids⟩ := stringWriteList_inv ws
  refine ⟨hdict, ?_, ?_⟩
  · intro i hi
    have hentry := hids i hi
    cases hws : ws.getD i none with
    | none =>
        rw [hws] at hentry
        exact hentry
    | some t =>
        rw [hws] at hentry
        have hentry2 : (stringWriteList stringInit (ws.map osToVal)).ids.getD i 0
            = u32 ((stringWriteList stringInit (ws.map osToVal)).idToStr.findIdx
                (fun u => u == t) + 1) := hentry
        show (stringWriteList stringInit (ws.map osToVal)).ids.getD i 0
            = (firstSeen (ws.filterMap id)).findIdx (fun u => u == t) + 1
        rw [hentry2, hdict]
        have htmem : t ∈ firstSeen (ws.filterMap id) :=
          (mem_firstSeen _ t).mpr (getD_some_mem_filterMap ws i t hi hws)
        have hflt : (firstSeen (ws.filterMap id)).findIdx (fun u => u == t)
            < (firstSeen (ws.filterMap id)).length :=
          List.findIdx_lt_length_of_exists ⟨t, htmem, by simp⟩
        have hub : (firstSeen (ws.filterMap id)).length ≤ ws.length :=
          le_trans (firstSeen_length_le _) (List.length_filterMap_le _ _)
        unfold u32
        rw [Nat.mod_eq_of_lt (by omega)]
  · have hcd : ((stringClose (stringWriteList stringInit (ws.map osToVal))).2).dict
        = (stringWriteList stringInit (ws.map osToVal)).idToStr.map
            (fun s => (s.utf8ByteSize, s)) := by
      by_cases hb : (stringWriteList stringInit (ws.map osToVal)).nullBit > 0 <;>
        simp [stringClose, hcl, hb]
    rw [hcd, hdict]

theorem string_dictionary_first_seen_witness :
    ([none, some "alpha", some "beta", some "alpha"] : List (Option String)).length
        < 4294967296 ∧
    (stringWriteList stringInit
        (([none, some "alpha", some "beta", some "alpha"] : List (Option String)).map osToVal)).idToStr
      = ["alpha", "beta"] := by
  constructor
  · decide
  · have h := (string_dictionary_first_seen
        [none, some "alpha", some "beta", some "alpha"] (by decide)).1
    rw [h]
    rfl

theorem manifestDupCheck_none_iff (l : List ManifestItem) (item : ManifestItem) :
    manifestDupCheck l item = none ↔ ∀ x ∈ l, x.id ≠ item.id ∧ x.path ≠ item.path := by
  induction l with
  | nil => simp [manifestDupCheck]
  | cons x rest ih =>
      unfold manifestDupCheck
      by_cases hid : x.id = item.id
      · simp [hid]
      · by_cases hpath : x.path = item.path
        · simp [hid, hpath]
        · simp only [show (x.id == item.id) = false by simp [hid],
            show (x.path == item.path) = false by simp [hpath],
            Bool.false_eq_true, if_false, ih, List.mem_cons]
          constructor
          · intro hall
            rintro y (rfl | hy)
            · exact ⟨hid, hpath⟩
            · exact hall y hy
          · intro hall y hy
            exact hall y (Or.inr hy)

/-- C9: Append preserves the manifest's no-duplicate invariant: on a
manifest with pairwise-distinct ids and paths, `appendManifestItem`
fails with a duplicate-segment-identity error exactly when the new
item's id or path matches an existing entry (leaving the manifest
unchanged), and otherwise returns the manifest with the item appended,
which again satisfies the invariant. -/
theorem manifest_append_preserves_nodup (m : Manifest) (item : ManifestItem)
    (h : manifestNoDup m) :
    ((∃ e, appendManifestItem m item = .error e) ↔
        ∃ x ∈ m.segments, x.id = item.id ∨ x.path = item.path) ∧
    (∀ m2, appendManifestItem m item = .ok m2 →
        m2.segments = m.segments ++ [item] ∧ manifestNoDup m2) := by
  constructor
  · constructor
    · rintro ⟨e, he⟩
      unfold appendManifestItem at he
      cases hd : manifestDupCheck m.segments item with
      | none =>
          rw [hd] at he
          exact Except.noConfusion he
      | some e2 =>
          by_contra hno
          push_neg at hno
          have hall : ∀ x ∈ m.segments, x.id ≠ item.id ∧ x.path ≠ item.path := by
            intro x hx
            have := hno x hx
            exact ⟨this.1, this.2⟩
          rw [(manifestDupCheck_none_iff m.segments item).mpr hall] at hd
          exact Option.noConfusion hd
    · rintro ⟨x, hx, hxe⟩
      unfold appendManifestItem
      cases hd : manifestDupCheck m.segments item with
      | some e => exact ⟨e, rfl⟩
      | none =>
          have hall := (manifestDupCheck_none_iff m.segments item).mp hd
          rcases hxe with hxe | hxe
          · exact absurd hxe (hall x hx).1
          · exact absurd hxe (hall x hx).2
  · intro m2 hm2
    unfold appendManifestItem at hm2
    cases hd : manifestDupCheck m.segments item with
    | some e =>
        rw [hd] at hm2
        exact Except.noConfusion hm2
    | none =>
        rw [hd] at hm2
        injection hm2 with hm2
        subst hm2
        refine ⟨rfl, ?_⟩
        have hall := (manifestDupCheck_none_iff m.segments item).mp hd
        unfold manifestNoDup at h ⊢
        rw [List.pairwise_append]
        refine ⟨h, by simp, ?_⟩
        intro a ha b hb
        simp only [List.mem_singleton] at hb
        subst hb
        exact hall a ha

theorem manifest_append_preserves_nodup_witness :
    manifestNoDup ⟨1, [⟨1, "segments/seg_000001", 2⟩]⟩ ∧
    ((⟨1, [⟨1, "segments/seg_000001", 2⟩, ⟨2, "segments/seg_000002", 3⟩]⟩ : Manifest).segments
        = [⟨1, "segments/seg_000001", 2⟩] ++ [⟨2, "segments/seg_000002", 3⟩] ∧
      manifestNoDup ⟨1, [⟨1, "segments/seg_000001", 2⟩, ⟨2, "segments/seg_000002", 3⟩]⟩) := by
  have hnd : manifestNoDup ⟨1, [⟨1, "segments/seg_000001", 2⟩]⟩ := by
    unfold manifestNoDup
    simp
  refine ⟨hnd, ?_⟩
  exact (manifest_append_preserves_nodup ⟨1, [⟨1, "segments/seg_000001", 2⟩]⟩
      ⟨2, "segments/seg_000002", 3⟩ hnd).2
    ⟨1, [⟨1, "segments/seg_000001", 2⟩, ⟨2, "segments/seg_000002", 3⟩]⟩ rfl

theorem closeFold {W : Type} (ops : WriterOps W) :
    ∀ (ws : List W) (acc : List W) (e0 : Option ColErr),
      ws.foldl (commitCloseStep ops) (acc, e0)
        = (acc ++ ws.map (fun w => (ops.close w).2),
           match e0 with
           | some e => some e
           | none => ws.findSome? (fun w => (ops.close w).1)) := by
  intro ws
  induction ws with
  | nil =>
      intro acc e0
      cases e0 <;> simp
  | cons w rest ih =>
      intro acc e0
      cases e0 with
      | some e =>
          have hstep : (w :: rest).foldl (commitCloseStep ops) (acc, some e)
              = rest.foldl (commitCloseStep ops) (acc ++ [(ops.close w).2], some e) := rfl
          rw [hstep, ih]
          simp
      | none =>
          have hstep : (w :: rest).foldl (commitCloseStep ops) (acc, none)
              = rest.foldl (commitCloseStep ops) (acc ++ [(ops.close w).2], (ops.close w).1) := rfl
          rw [hstep]
          cases hc : (ops.close w).1 with
          | some e =>
              rw [ih]
              simp [List.findSome?_cons, hc]
          | none =>
              rw [ih]
              simp [List.findSome?_cons, hc]

theorem commit_eq {W : Type} (ops : WriterOps W) (s : SegState W)
    (h : s.committed = false) :
    commit ops s =
      (let ws2 := s.writers.map (fun w => (ops.close w).2)
       let s2 : SegState W := { s with writers := ws2 }
       match s.writers.findSome? (fun w => (ops.close w).1) with
       | some e => (some (.closeFailed e), segAbort s2)
       | none =>
          if ws2.any (fun w => ops.recordCount w ≠ s2.recordCount) then
            (some .recordCountMismatch, segAbort s2)
          else
            let s3 := { s2 with metaFile := some (buildMetadata ops s2) }
            let s4 := { s3 with tempExists := false, finalExists := true, committed := true }
            match appendManifestItem s4.manifest
                ⟨Int.ofNat s4.segmentId, s4.finalPath, s4.recordCount⟩ with
            | .error e => (some (.manifestUpdateFailed e), s4)
            | .ok m2 => (none, { s4 with manifest := m2 })) := by
  unfold commit
  rw [if_neg (by simp [h])]
  rw [closeFold ops s.writers [] none]
  rfl

/-- C6: On an open segment writer, commit attempts every column
writer's close in schema order (each writer in the resulting state is
its closed version) even if an earlier close fails; and if any close
failed, commit returns the first close error in order, invokes abort
(the temp directory is removed) and the writer is not committed. -/
theorem commit_best_effort_close {W : Type} (ops : WriterOps W) (s : SegState W)
    (h : s.committed = false) :
    ((commit ops s).2).writers = s.writers.map (fun w => (ops.close w).2) ∧
    (∀ e, s.writers.findSome? (fun w => (ops.close w).1) = some e →
      (commit ops s).1 = some (SegErr.closeFailed e) ∧
      ((commit ops s).2).tempExists = false ∧
      ((commit ops s).2).committed = false) := by
  rw [commit_eq ops s h]
  cases hE : s.writers.findSome? (fun w => (ops.close w).1) with
  | some e =>
      constructor
      · simp [segAbort]
      · intro e2 he2
        injection he2 with he2
        subst he2
        simp [segAbort, h]
  | none =>
      constructor
      · dsimp only
        split
        · simp [segAbort]
        · split <;> simp
      · intro e2 he2
        exact Option.noConfusion he2

theorem commit_best_effort_close_witness :
    natSeg.committed = false ∧
    ((commit natOps natSeg).2).writers = [1, 2] ∧
    (commit natOps natSeg).1 = some (SegErr.closeFailed ColErr.alreadyClosed) ∧
    ((commit natOps natSeg).2).tempExists = false ∧
    ((commit natOps natSeg).2).committed = false := by
  have hc := commit_best_effort_close natOps natSeg rfl
  have he := hc.2 ColErr.alreadyClosed (by decide)
  refine ⟨rfl, ?_, he.1, he.2.1, he.2.2⟩
  rw [hc.1]
  decide

theorem columnMeta_minmax_presence (col : Column) (w : ColWriter)
    (h : writerShapeMatches col.type w = true) :
    ((columnMeta colWriterOps col w).minValue.isSome
        = (numericTypeName (columnMeta colWriterOps col w).typeName
            && decide ((columnMeta colWriterOps col w).nullCount
                < (columnMeta colWriterOps col w).recordCount))) ∧
    ((columnMeta colWriterOps col w).maxValue.isSome
        = (numericTypeName (columnMeta colWriterOps col w).typeName
            && decide ((columnMeta colWriterOps col w).nullCount
                < (columnMeta colWriterOps col w).recordCount))) := by
  obtain ⟨cname, ctype, cnull, cidx⟩ := col
  cases ctype <;> cases w <;> (try (simp [writerShapeMatches] at h)) <;>
    (simp only [columnMeta, colWriterOps, ColumnType.goName, numericTypeName]) <;>
    ((try split) <;> simp <;> omega)

/-- C4: In the emitted segment metadata, a column's `min_value` and
`max_value` are set exactly when the column type is Int64, Float64 or
Timestamp and at least one non-null value was written
(`null_count < record_count`); Bool and String columns, and numeric
columns holding only nulls, get neither field. -/
theorem metadata_minmax_presence (s : SegState ColWriter)
    (h : ∀ p ∈ s.cols.zip s.writers, writerShapeMatches p.1.type p.2 = true) :
    ∀ m ∈ (buildMetadata colWriterOps s).columns,
      m.minValue.isSome
          = (numericTypeName m.typeName && decide (m.nullCount < m.recordCount)) ∧
      m.maxValue.isSome
          = (numericTypeName m.typeName && decide (m.nullCount < m.recordCount)) := by
  intro m hm
  unfold buildMetadata at hm
  simp only [List.mem_map] at hm
  obtain ⟨p, hp, rfl⟩ := hm
  exact columnMeta_minmax_presence p.1 p.2 (h p hp)

theorem metadata_minmax_presence_witness :
    (∀ p ∈ (initSegState "segments" 1
          [⟨"age", ColumnType.int64, true, 0⟩, ⟨"name", ColumnType.string, true, 1⟩]).cols.zip
        (initSegState "segments" 1
          [⟨"age", ColumnType.int64, true, 0⟩, ⟨"name", ColumnType.string, true, 1⟩]).writers,
      writerShapeMatches p.1.type p.2 = true) ∧
    (((buildMetadata colWriterOps (initSegState "segments" 1
          [⟨"age", ColumnType.int64, true, 0⟩, ⟨"name", ColumnType.string, true, 1⟩])).columns.getD 0
        default).minValue.isSome
      = (numericTypeName ((buildMetadata colWriterOps (initSegState "segments" 1
          [⟨"age", ColumnType.int64, true, 0⟩, ⟨"name", ColumnType.string, true, 1⟩])).columns.getD 0
            default).typeName
        && decide (((buildMetadata colWriterOps (initSegState "segments" 1
          [⟨"age", ColumnType.int64, true, 0⟩, ⟨"name", ColumnType.string, true, 1⟩])).columns.getD 0
            default).nullCount
          < ((buildMetadata colWriterOps (initSegState "segments" 1
          [⟨"age", ColumnType.int64, true, 0⟩, ⟨"name", ColumnType.string, true, 1⟩])).columns.getD 0
            default).recordCount))) := by
  refine ⟨by decide, ?_⟩
  exact (metadata_minmax_presence (initSegState "segments" 1
      [⟨"age", ColumnType.int64, true, 0⟩, ⟨"name", ColumnType.string, true, 1⟩])
      (by decide) _ (by decide)).1

/-- C5 (counterexample): A committed segment whose first column has
`null_count = 0`: the emitted JSON keys do not include `null_count`
(the field carries `omitempty`), refuting "null_count is always
present, including when its value is 0". -/
theorem column_metadata_nullcount_missing_counterexample :
    c5seg.committed = true ∧
    ((c5seg.metaFile.getD default).columns.getD 0 default).nullCount = 0 ∧
    "null_count" ∉ columnMetadataJsonKeys
        ((c5seg.metaFile.getD default).columns.getD 0 default) := by
  decide

/-- C5 (amended): Every emitted column entry always carries `name`,
`type` and `record_count`; `null_count` is emitted exactly when it is
non-zero, because the Go struct field carries `omitempty` (as do
`min_value`, `max_value` and `dictionary_size`). -/
theorem column_metadata_json_keys (c : ColumnMetadata) :
    "name" ∈ columnMetadataJsonKeys c ∧
    "type" ∈ columnMetadataJsonKeys c ∧
    "record_count" ∈ columnMetadataJsonKeys c ∧
    ("null_count" ∈ columnMetadataJsonKeys c ↔ c.nullCount ≠ 0) := by
  unfold columnMetadataJsonKeys
  refine ⟨by simp, by simp, by simp, ?_⟩
  split_ifs with h1 h2 h3 h4 <;> simp_all

theorem writeColumns_nullViolation {W : Type} (ops : WriterOps W)
    (rec : List (String × GoValue)) :
    ∀ (cols : List Column) (ws : List W) (c : String) (ws2 : List W),
      writeColumns ops rec cols ws = (some (.nullViolation c), ws2) →
      ∃ j, j < cols.length ∧ (cols.getD j default).name = c ∧
        (cols.getD j default).nullable = false ∧
        List.lookup c rec = some GoValue.null ∧
        ws2.drop j = ws.drop j := by
  intro cols
  induction cols with
  | nil =>
      intro ws c ws2 hw
      simp [writeColumns] at hw
  | cons c0 cs ih =>
      intro ws c ws2 hw
      cases ws with
      | nil => simp [writeColumns] at hw
      | cons w wt =>
          unfold writeColumns at hw
          cases hlk : List.lookup c0.name rec with
          | none =>
              rw [hlk] at hw
              simp at hw
          | some v =>
              rw [hlk] at hw
              dsimp only at hw
              by_cases hnv : (!c0.nullable && isNilValue v) = true
              · rw [if_pos hnv] at hw
                have h1 := congrArg Prod.fst hw
                have h2 := congrArg Prod.snd hw
                dsimp only at h1 h2
                injection h1 with h1
                injection h1 with h1
                have hnable : c0.nullable = false := by
                  rcases Bool.and_eq_true_iff.mp hnv with ⟨ha, _⟩
                  simpa using ha
                have hvnull : v = GoValue.null := by
                  rcases Bool.and_eq_true_iff.mp hnv with ⟨_, hb⟩
                  cases v <;> simp [isNilValue] at hb ⊢
                refine ⟨0, by simp, h1, hnable, ?_, by rw [h2]⟩
                rw [← h1, hlk, hvnull]
              · rw [if_neg hnv] at hw
                cases hwr : ops.write w v with
                | mk e1 w2 =>
                    rw [hwr] at hw
                    cases e1 with
                    | some e =>
                        simp at hw
                    | none =>
                        have h1 := congrArg Prod.fst hw
                        have h2 := congrArg Prod.snd hw
                        dsimp only at h1 h2
                        have hrec : writeColumns ops rec cs wt
                            = (some (.nullViolation c), (writeColumns ops rec cs wt).2) := by
                          rw [← h1]
                        obtain ⟨j, hj, hname, hnn, hlkc, hdrop⟩ :=
                          ih wt c (writeColumns ops rec cs wt).2 hrec
                        refine ⟨j + 1, by simp; omega, hname, hnn, hlkc, ?_⟩
                        rw [← h2]
                        simp only [List.drop_succ_cons]
                        exact hdrop

theorem writeColumns_nullViolation_complete {W : Type} [Inhabited W]
    (ops : WriterOps W) (rec : List (String × GoValue)) :
    ∀ (cols : List Column) (ws : List W) (j : Nat),
      j < cols.length → j < ws.length →
      (∀ i, i < j → ∃ v, List.lookup (cols.getD i default).name rec = some v ∧
          (!(cols.getD i default).nullable && isNilValue v) = false ∧
          (ops.write (ws.getD i default) v).1 = none) →
      (cols.getD j default).nullable = false →
      List.lookup (cols.getD j default).name rec = some GoValue.null →
      (writeColumns ops rec cols ws).1
          = some (.nullViolation (cols.getD j default).name) := by
  intro cols
  induction cols with
  | nil =>
      intro ws j hjc
      simp at hjc
  | cons c0 cs ih =>
      intro ws j hjc hjw hpre hnn hlk
      cases ws with
      | nil => simp at hjw
      | cons w wt =>
          cases j with
          | zero =>
              have hlk0 : List.lookup c0.name rec = some GoValue.null := hlk
              have hnn0 : c0.nullable = false := hnn
              unfold writeColumns
              rw [hlk0]
              dsimp only
              rw [if_pos (by simp [hnn0, isNilValue])]
              rfl
          | succ j =>
              obtain ⟨v, hv1, hv2, hv3⟩ := hpre 0 (Nat.succ_pos j)
              have hv1g : List.lookup c0.name rec = some v := hv1
              have hv2g : (!c0.nullable && isNilValue v) = false := hv2
              have hv3g : (ops.write w v).1 = none := hv3
              unfold writeColumns
              rw [hv1g]
              dsimp only
              rw [if_neg (by simp [hv2g])]
              cases hwr : ops.write w v with
              | mk e1 w2 =>
                  rw [hwr] at hv3g
                  dsimp only at hv3g
                  subst hv3g
                  dsimp only
                  exact ih wt j (by simpa using Nat.lt_of_succ_lt_succ (by simpa using hjc))
                    (by simpa using Nat.lt_of_succ_lt_succ (by simpa using hjw))
                    (fun i hi => hpre (i + 1) (by omega))
                    hnn hlk

/-- C1 (amended): If `WriteRecord` fails with a null-violation for
column `c`, then `record_count` is not incremented, `c` is a
non-nullable schema column bound to null in the record, and the writers
from `c`'s schema position onward are untouched — but writers of
earlier schema columns have already advanced, because nullability is
checked inside the per-column loop, interleaved with the writes, not
up-front (conversely, the first non-nullable column bound to null is
reported, provided every earlier column is present and its write
succeeds). -/
theorem writeRecord_null_violation_amended {W : Type} [Inhabited W]
    (ops : WriterOps W) (s : SegState W) (rec : List (String × GoValue))
    (hc : s.committed = false) :
    (∀ c s2, writeRecord ops s rec = (some (SegErr.nullViolation c), s2) →
      s2.recordCount = s.recordCount ∧
      ∃ j, j < s.cols.length ∧ (s.cols.getD j default).name = c ∧
        (s.cols.getD j default).nullable = false ∧
        List.lookup c rec = some GoValue.null ∧
        s2.writers.drop j = s.writers.drop j) ∧
    (∀ j, j < s.cols.length → j < s.writers.length →
      (∀ i, i < j → ∃ v, List.lookup (s.cols.getD i default).name rec = some v ∧
          (!(s.cols.getD i default).nullable && isNilValue v) = false ∧
          (ops.write (s.writers.getD i default) v).1 = none) →
      (s.cols.getD j default).nullable = false →
      List.lookup (s.cols.getD j default).name rec = some GoValue.null →
      (writeRecord ops s rec).1 = some (SegErr.nullViolation (s.cols.getD j default).name) ∧
      ((writeRecord ops s rec).2).recordCount = s.recordCount) := by
  constructor
  · intro c s2 hwr
    unfold writeRecord at hwr
    rw [if_neg (by simp [hc])] at hwr
    cases hwc : writeColumns ops rec s.cols s.writers with
    | mk e1 ws2 =>
        rw [hwc] at hwr
        cases e1 with
        | none =>
            dsimp only at hwr
            have := congrArg Prod.fst hwr
            simp at this
        | some e =>
            dsimp only at hwr
            have h1 := congrArg Prod.fst hwr
            have h2 := congrArg Prod.snd hwr
            dsimp only at h1 h2
            injection h1 with h1
            subst h1
            obtain ⟨j, hj, hname, hnn, hlkc, hdrop⟩ :=
              writeColumns_nullViolation ops rec s.cols s.writers c ws2 hwc
            refine ⟨by rw [← h2], j, hj, hname, hnn, hlkc, ?_⟩
            rw [← h2]
            exact hdrop
  · intro j hjc hjw hpre hnn hlk
    have hfst := writeColumns_nullViolation_complete ops rec s.cols s.writers j
      hjc hjw hpre hnn hlk
    unfold writeRecord
    rw [if_neg (by simp [hc])]
    cases hwc : writeColumns ops rec s.cols s.writers with
    | mk e1 ws2 =>
        rw [hwc] at hfst
        dsimp only at hfst
        subst hfst
        exact ⟨rfl, rfl⟩

/-- C1 (counterexample): Writing `{a: 1, b: null}` fails with the
null violation for `b` and `record_count` stays 0, but column `a`'s
writer has already advanced to one record — refuting "no column writer
advances for that record". -/
theorem writeRecord_advances_earlier_writers_counterexample :
    (writeRecord colWriterOps c1seg [("a", GoValue.int 1), ("b", GoValue.null)]).1
        = some (SegErr.nullViolation "b") ∧
    ((writeRecord colWriterOps c1seg [("a", GoValue.int 1), ("b", GoValue.null)]).2).recordCount
        = 0 ∧
    colRecordCount
        (((writeRecord colWriterOps c1seg
            [("a", GoValue.int 1), ("b", GoValue.null)]).2).writers.getD 0 default) = 1 := by
  decide

theorem writeRecord_null_violation_amended_witness :
    c1seg.committed = false ∧
    (writeRecord colWriterOps c1seg [("a", GoValue.int 1), ("b", GoValue.null)]).1
        = some (SegErr.nullViolation "b") := by
  refine ⟨rfl, ?_⟩
  have h := (writeRecord_null_violation_amended colWriterOps c1seg
      [("a", GoValue.int 1), ("b", GoValue.null)] rfl).2 1 (by decide) (by decide)
      (fun i hi => by
        have hi0 : i = 0 := by omega
        subst hi0
        exact ⟨GoValue.int 1, by decide, by decide, by decide⟩)
      (by decide) (by decide)
  exact h.1.trans (by decide)

theorem flush_packs (bytes : List Nat) (byte bit : Nat) (flags : List Bool)
    (hrel : bitmapRel bytes byte bit flags) :
    (if bit > 0 then bytes ++ [byte] else bytes) = packBytes flags := by
  rcases hrel with ⟨full, rem, hfl, hrem, hdvd, hbytes, hbyte, hbit⟩
  subst hfl hbytes hbyte hbit
  by_cases hr : rem = []
  · subst hr
    simp
  · have hbpos : rem.length > 0 := List.length_pos.mpr hr
    rw [if_pos hbpos]
    exact (packBytes_append_chunk full rem hdvd hr (by omega)).symm

theorem float64Close_packs (w : Float64State) (h : w.closed = false) (flags : List Bool)
    (hrel : bitmapRel w.nulls w.nullByte w.nullBit flags) :
    ((float64Close w).2).nulls = packBytes flags := by
  have hnl : ((float64Close w).2).nulls
      = if w.nullBit > 0 then w.nulls ++ [w.nullByte] else w.nulls := by
    by_cases hb : w.nullBit > 0 <;> simp [float64Close, h, hb]
  rw [hnl]
  exact flush_packs w.nulls w.nullByte w.nullBit flags hrel

theorem boolClose_packs (w : BoolState) (h : w.closed = false) (flags : List Bool)
    (hrel : bitmapRel w.nulls w.nullByte w.nullBit flags) :
    ((boolClose w).2).nulls = packBytes flags := by
  have hnl : ((boolClose w).2).nulls
      = if w.nullBit > 0 then w.nulls ++ [w.nullByte] else w.nulls := by
    by_cases hv : w.valueBitPos > 0 <;> by_cases hb : w.nullBit > 0 <;>
      simp [boolClose, h, hv, hb]
  rw [hnl]
  exact flush_packs w.nulls w.nullByte w.nullBit flags hrel

theorem stringClose_packs (w : StringState) (h : w.closed = false) (flags : List Bool)
    (hrel : bitmapRel w.nulls w.nullByte w.nullBit flags) :
    ((stringClose w).2).nulls = packBytes flags := by
  have hnl : ((stringClose w).2).nulls
      = if w.nullBit > 0 then w.nulls ++ [w.nullByte] else w.nulls := by
    by_cases hb : w.nullBit > 0 <;> simp [stringClose, h, hb]
  rw [hnl]
  exact flush_packs w.nulls w.nullByte w.nullBit flags hrel

theorem float64Write_bitmap_fields (w : Float64State) (h : w.closed = false)
    (o : Option GoFloat) (hg : (o.getD (GoFloat.finite 0)).isNaN = false) :
    ((float64Write w (ofToVal o)).2).closed = false ∧
    (((float64Write w (ofToVal o)).2).nulls, ((float64Write w (ofToVal o)).2).nullByte,
      ((float64Write w (ofToVal o)).2).nullBit)
        = nullAppend w.nulls w.nullByte w.nullBit o.isSome := by
  cases o with
  | none => simp [float64Write, ofToVal, h]
  | some g =>
      simp only [Option.getD_some] at hg
      by_cases hv : w.hasValue
      · simp [float64Write, ofToVal, h, hg, hv]
      · simp [float64Write, ofToVal, h, hg, hv]

theorem boolWrite_bitmap_fields (w : BoolState) (h : w.closed = false) (o : Option Bool) :
    ((boolWrite w (obToVal o)).2).closed = false ∧
    (((boolWrite w (obToVal o)).2).nulls, ((boolWrite w (obToVal o)).2).nullByte,
      ((boolWrite w (obToVal o)).2).nullBit)
        = nullAppend w.nulls w.nullByte w.nullBit o.isSome := by
  cases o with
  | none => simp [boolWrite, obToVal, h]
  | some b => simp [boolWrite, obToVal, h]

theorem stringWrite_bitmap_fields (w : StringState) (h : w.closed = false)
    (o : Option String) :
    ((stringWrite w (osToVal o)).2).closed = false ∧
    (((stringWrite w (osToVal o)).2).nulls, ((stringWrite w (osToVal o)).2).nullByte,
      ((stringWrite w (osToVal o)).2).nullBit)
        = nullAppend w.nulls w.nullByte w.nullBit o.isSome := by
  cases o with
  | none => simp [stringWrite, osToVal, h]
  | some s =>
      cases hf : List.lookup s w.strToID with
      | some sid => simp [stringWrite, osToVal, h, hf]
      | none => simp [stringWrite, osToVal, h, hf]

theorem float64WriteList_bitmap :
    ∀ (ws : List (Option GoFloat)) (w : Float64State) (flags : List Bool),
      w.closed = false →
      (∀ o ∈ ws, (o.getD (GoFloat.finite 0)).isNaN = false) →
      bitmapRel w.nulls w.nullByte w.nullBit flags →
      (float64WriteList w (ws.map ofToVal)).closed = false ∧
      bitmapRel (float64WriteList w (ws.map ofToVal)).nulls
        (float64WriteList w (ws.map ofToVal)).nullByte
        (float64WriteList w (ws.map ofToVal)).nullBit
        (flags ++ ws.map Option.isSome) := by
  intro ws
  induction ws with
  | nil =>
      intro w flags h _ hrel
      exact ⟨h, by simpa [float64WriteList] using hrel⟩
  | cons o rest ih =>
      intro w flags h hnan hrel
      have hstep := float64Write_bitmap_fields w h o (hnan o (by simp))
      have hlist : float64WriteList w ((o :: rest).map ofToVal)
          = float64WriteList (float64Write w (ofToVal o)).2 (rest.map ofToVal) := by
        simp [float64WriteList]
      rw [hlist]
      have hrel2 : bitmapRel ((float64Write w (ofToVal o)).2).nulls
          ((float64Write w (ofToVal o)).2).nullByte
          ((float64Write w (ofToVal o)).2).nullBit (flags ++ [o.isSome]) := by
        have hb := bitmapRel_step hrel o.isSome
        have h1 := congrArg Prod.fst hstep.2
        have h23 := congrArg Prod.snd hstep.2
        have h2 := congrArg Prod.fst h23
        have h3 := congrArg Prod.snd h23
        dsimp only at h1 h2 h3
        rw [h1, h2, h3]
        exact hb
      have hrest := ih (float64Write w (ofToVal o)).2 (flags ++ [o.isSome]) hstep.1
        (fun o2 ho2 => hnan o2 (by simp [ho2])) hrel2
      refine ⟨hrest.1, ?_⟩
      have harr : flags ++ [o.isSome] ++ rest.map Option.isSome
          = flags ++ (o :: rest).map Option.isSome := by
        simp
      rw [harr] at hrest
      exact hrest.2

theorem boolWriteList_bitmap :
    ∀ (ws : List (Option Bool)) (w : BoolState) (flags : List Bool),
      w.closed = false →
      bitmapRel w.nulls w.nullByte w.nullBit flags →
      (boolWriteList w (ws.map obToVal)).closed = false ∧
      bitmapRel (boolWriteList w (ws.map obToVal)).nulls
        (boolWriteList w (ws.map obToVal)).nullByte
        (boolWriteList w (ws.map obToVal)).nullBit
        (flags ++ ws.map Option.isSome) := by
  intro ws
  induction ws with
  | nil =>
      intro w flags h hrel
      exact ⟨h, by simpa [boolWriteList] using hrel⟩
  | cons o rest ih =>
      intro w flags h hrel
      have hstep := boolWrite_bitmap_fields w h o
      have hlist : boolWriteList w ((o :: rest).map obToVal)
          = boolWriteList (boolWrite w (obToVal o)).2 (rest.map obToVal) := by
        simp [boolWriteList]
      rw [hlist]
      have hrel2 : bitmapRel ((boolWrite w (obToVal o)).2).nulls
          ((boolWrite w (obToVal o)).2).nullByte
          ((boolWrite w (obToVal o)).2).nullBit (flags ++ [o.isSome]) := by
        have hb := bitmapRel_step hrel o.isSome
        have h1 := congrArg Prod.fst hstep.2
        have h23 := congrArg Prod.snd hstep.2
        have h2 := congrArg Prod.fst h23
        have h3 := congrArg Prod.snd h23
        dsimp only at h1 h2 h3
        rw [h1, h2, h3]
        exact hb
      have hrest := ih (boolWrite w (obToVal o)).2 (flags ++ [o.isSome]) hstep.1 hrel2
      refine ⟨hrest.1, ?_⟩
      have harr : flags ++ [o.isSome] ++ rest.map Option.isSome
          = flags ++ (o :: rest).map Option.isSome := by
        simp
      rw [harr] at hrest
      exact hrest.2

theorem stringWriteList_bitmap :
    ∀ (ws : List (Option String)) (w : StringState) (flags : List Bool),
      w.closed = false →
      bitmapRel w.nulls w.nullByte w.nullBit flags →
      (stringWriteList w (ws.map osToVal)).closed = false ∧
      bitmapRel (stringWriteList w (ws.map osToVal)).nulls
        (stringWriteList w (ws.map osToVal)).nullByte
        (stringWriteList w (ws.map osToVal)).nullBit
        (flags ++ ws.map Option.isSome) := by
  intro ws
  induction ws with
  | nil =>
      intro w flags h hrel
      exact ⟨h, by simpa [stringWriteList] using hrel⟩
  | cons o rest ih =>
      intro w flags h hrel
      have hstep := stringWrite_bitmap_fields w h o
      have hlist : stringWriteList w ((o :: rest).map osToVal)
          = stringWriteList (stringWrite w (osToVal o)).2 (rest.map osToVal) := by
        simp [stringWriteList]
      rw [hlist]
      have hrel2 : bitmapRel ((stringWrite w (osToVal o)).2).nulls
          ((stringWrite w (osToVal o)).2).nullByte
          ((stringWrite w (osToVal o)).2).nullBit (flags ++ [o.isSome]) := by
        have hb := bitmapRel_step hrel o.isSome
        have h1 := congrArg Prod.fst hstep.2
        have h23 := congrArg Prod.snd hstep.2
        have h2 := congrArg Prod.fst h23
        have h3 := congrArg Prod.snd h23
        dsimp only at h1 h2 h3
        rw [h1, h2, h3]
        exact hb
      have hrest := ih (stringWrite w (osToVal o)).2 (flags ++ [o.isSome]) hstep.1 hrel2
      refine ⟨hrest.1, ?_⟩
      have harr : flags ++ [o.isSome] ++ rest.map Option.isSome
          = flags ++ (o :: rest).map Option.isSome := by
        simp
      rw [harr] at hrest
      exact hrest.2

theorem tsWriteList_ov_inner :
    ∀ (ws : List (Option Int)) (w : Int64State),
      (tsWriteList ⟨w⟩ (ws.map ovToVal)).inner = int64WriteList w (ws.map ovToVal) := by
  intro ws
  induction ws with
  | nil => intro w; rfl
  | cons o rest ih =>
      intro w
      cases o with
      | none =>
          have h1 : tsWriteList ⟨w⟩ ((none :: rest).map ovToVal)
              = tsWriteList ⟨(int64Write w .null).2⟩ (rest.map ovToVal) := by
            simp [tsWriteList, tsWrite, ovToVal]
          have h2 : int64WriteList w ((none :: rest).map ovToVal)
              = int64WriteList (int64Write w .null).2 (rest.map ovToVal) := by
            simp [int64WriteList, ovToVal]
          rw [h1, h2]
          exact ih (int64Write w .null).2
      | some v =>
          have h1 : tsWriteList ⟨w⟩ ((some v :: rest).map ovToVal)
              = tsWriteList ⟨(int64Write w (.int v)).2⟩ (rest.map ovToVal) := by
            simp [tsWriteList, tsWrite, ovToVal]
          have h2 : int64WriteList w ((some v :: rest).map ovToVal)
              = int64WriteList (int64Write w (.int v)).2 (rest.map ovToVal) := by
            simp [int64WriteList, ovToVal]
          rw [h1, h2]
          exact ih (int64Write w (.int v)).2

/-- C7: For every column writer (int64, float64, bool, string, and the
timestamp adapter) and every sequence of successful writes followed by
close, the null bitmap file holds one bit per write, MSB-first:
position `i` occupies bit `7 - (i % 8)` of byte `i / 8` and is set iff
the `i`-th write was non-null; the final partial byte is flushed at
close padded with 0 bits on the low-order side (every bit past the last
position reads as 0), the file holding `⌈n/8⌉` bytes. -/
theorem column_writers_null_bitmap_spec
    (wsI wsT : List (Option Int)) (wsF : List (Option GoFloat))
    (wsB : List (Option Bool)) (wsS : List (Option String))
    (hF : ∀ o ∈ wsF, (o.getD (GoFloat.finite 0)).isNaN = false) :
    (((int64Close (int64WriteList int64Init (wsI.map ovToVal))).2).nulls.length
        = (wsI.length + 7) / 8 ∧
      ∀ i : Nat,
        (((int64Close (int64WriteList int64Init (wsI.map ovToVal))).2).nulls.getD
            (i / 8) 0).testBit (7 - i % 8)
          = (wsI.getD i none).isSome) ∧
    (((float64Close (float64WriteList float64Init (wsF.map ofToVal))).2).nulls.length
        = (wsF.length + 7) / 8 ∧
      ∀ i : Nat,
        (((float64Close (float64WriteList float64Init (wsF.map ofToVal))).2).nulls.getD
            (i / 8) 0).testBit (7 - i % 8)
          = (wsF.getD i none).isSome) ∧
    (((boolClose (boolWriteList boolInit (wsB.map obToVal))).2).nulls.length
        = (wsB.length + 7) / 8 ∧
      ∀ i : Nat,
        (((boolClose (boolWriteList boolInit (wsB.map obToVal))).2).nulls.getD
            (i / 8) 0).testBit (7 - i % 8)
          = (wsB.getD i none).isSome) ∧
    (((stringClose (stringWriteList stringInit (wsS.map osToVal))).2).nulls.length
        = (wsS.length + 7) / 8 ∧
      ∀ i : Nat,
        (((stringClose (stringWriteList stringInit (wsS.map osToVal))).2).nulls.getD
            (i / 8) 0).testBit (7 - i % 8)
          = (wsS.getD i none).isSome) ∧
    (((tsClose (tsWriteList tsInit (wsT.map ovToVal))).2).inner.nulls.length
        = (wsT.length + 7) / 8 ∧
      ∀ i : Nat,
        (((tsClose (tsWriteList tsInit (wsT.map ovToVal))).2).inner.nulls.getD
            (i / 8) 0).testBit (7 - i % 8)
          = (wsT.getD i none).isSome) := by
  have hnil : ∀ (bs : List Bool), ([] : List Bool) ++ bs = bs := fun bs => by simp
  have hI : ∀ ws : List (Option Int),
      ((int64Close (int64WriteList int64Init (ws.map ovToVal))).2).nulls
        = packBytes (ws.map Option.isSome) := by
    intro ws
    have hinv := int64WriteList_bitmap ws int64Init [] rfl bitmapRel_init
    rw [hnil] at hinv
    exact int64Close_packs _ hinv.1 _ hinv.2.2
  refine ⟨⟨?_, ?_⟩, ⟨?_, ?_⟩, ⟨?_, ?_⟩, ⟨?_, ?_⟩, ⟨?_, ?_⟩⟩
  · rw [hI wsI, packBytes_length]
    simp
  · intro i
    rw [hI wsI, packBytes_bit]
    exact getD_map_isSome wsI i
  · have hinv := float64WriteList_bitmap wsF float64Init [] rfl hF bitmapRel_init
    rw [hnil] at hinv
    rw [float64Close_packs _ hinv.1 _ hinv.2, packBytes_length]
    simp
  · intro i
    have hinv := float64WriteList_bitmap wsF float64Init [] rfl hF bitmapRel_init
    rw [hnil] at hinv
    rw [float64Close_packs _ hinv.1 _ hinv.2, packBytes_bit]
    exact getD_map_isSome wsF i
  · have hinv := boolWriteList_bitmap wsB boolInit [] rfl bitmapRel_init
    rw [hnil] at hinv
    rw [boolClose_packs _ hinv.1 _ hinv.2, packBytes_length]
    simp
  · intro i
    have hinv := boolWriteList_bitmap wsB boolInit [] rfl bitmapRel_init
    rw [hnil] at hinv
    rw [boolClose_packs _ hinv.1 _ hinv.2, packBytes_bit]
    exact getD_map_isSome wsB i
  · have hinv := stringWriteList_bitmap wsS stringInit [] rfl bitmapRel_init
    rw [hnil] at hinv
    rw [stringClose_packs _ hinv.1 _ hinv.2, packBytes_length]
    simp
  · intro i
    have hinv := stringWriteList_bitmap wsS stringInit [] rfl bitmapRel_init
    rw [hnil] at hinv
    rw [stringClose_packs _ hinv.1 _ hinv.2, packBytes_bit]
    exact getD_map_isSome wsS i
  · have hin : ((tsClose (tsWriteList tsInit (wsT.map ovToVal))).2).inner
        = (int64Close (int64WriteList int64Init (wsT.map ovToVal))).2 := by
      show (int64Close (tsWriteList ⟨int64Init⟩ (wsT.map ovToVal)).inner).2 = _
      rw [tsWriteList_ov_inner]
    rw [hin, hI wsT, packBytes_length]
    simp
  · intro i
    have hin : ((tsClose (tsWriteList tsInit (wsT.map ovToVal))).2).inner
        = (int64Close (int64WriteList int64Init (wsT.map ovToVal))).2 := by
      show (int64Close (tsWriteList ⟨int64Init⟩ (wsT.map ovToVal)).inner).2 = _
      rw [tsWriteList_ov_inner]
    rw [hin, hI wsT, packBytes_bit]
    exact getD_map_isSome wsT i

theorem column_writers_null_bitmap_spec_witness :
    (∀ o ∈ [none, some (GoFloat.finite 1)], (o.getD (GoFloat.finite 0)).isNaN = false) ∧
    ((float64Close (float64WriteList float64Init
        (([none, some (GoFloat.finite 1)] : List (Option GoFloat)).map ofToVal))).2).nulls.length
      = 1 ∧
    (((float64Close (float64WriteList float64Init
        (([none, some (GoFloat.finite 1)] : List (Option GoFloat)).map ofToVal))).2).nulls.getD
        0 0).testBit 6
      = true := by
  refine ⟨by decide, ?_, ?_⟩
  · have h := column_writers_null_bitmap_spec [] [] [none, some (GoFloat.finite 1)] [] []
      (by decide)
    exact h.2.1.1.trans (by decide)
  · have h := column_writers_null_bitmap_spec [] [] [none, some (GoFloat.finite 1)] [] []
      (by decide)
    exact (h.2.1.2 1).trans (by decide)
